import Mathlib

/-!
# Verification of the `combiner` import-consolidation library

A shallow embedding of `src/lib.rs` of the `combiner` crate: the path/item
model, the `ViewPath` declaration type, the textual convenience parser, the
`ImportNode` trie with its `combine_with` merge, and the
insert/emit pipeline (`ImportCombiner`, `combine_imports`).

Modelling conventions:
* Rust `Vec<String>` paths become `List String`; `BTreeMap<String, ImportNode>`
  becomes a list of key-value pairs kept sorted by key (extensionally equal to
  the B-tree map, which iterates in sorted key order).
* `str::split`, `trim`, `split_whitespace` are reimplemented structurally over
  `List Char` with the same observable behaviour (Rust iterates over the same
  character content for the ASCII inputs these declarations are made of).
* `Vec::sort` on `String` is modelled by an insertion sort: equal strings are
  indistinguishable values, so any sorting algorithm produces the same list.
-/

/-! ## Path model and textual helpers (`as_path`, `Item::from`) -/

/-- Splitter for the `"::"` separator, over the character list of a string.
`cur` accumulates the current segment. Mirrors Rust
`str::split("::")` (non-overlapping, leftmost-first, keeps empty segments). -/
def splitOnColons : List Char → List Char → List String
  | cur, ':' :: ':' :: rest => String.mk cur :: splitOnColons [] rest
  | cur, c :: rest => splitOnColons (cur ++ [c]) rest
  | cur, [] => [String.mk cur]

/-- `pub fn as_path(p: &str) -> Path` — split a `::`-delimited string. -/
def as_path (p : String) : List String := splitOnColons [] p.toList

/-- Splitter on a single character (for `,`), keeping empty segments,
mirroring Rust `str::split(",")`. -/
def splitOnChar (sep : Char) : List Char → List Char → List String
  | cur, [] => [String.mk cur]
  | cur, c :: rest =>
    if c = sep then String.mk cur :: splitOnChar sep [] rest
    else splitOnChar sep (cur ++ [c]) rest

/-- Whitespace splitter, keeping empty segments (they are filtered out by the
caller, which together mirrors Rust `str::split_whitespace`). -/
def splitWsCL : List Char → List Char → List String
  | cur, [] => [String.mk cur]
  | cur, c :: rest =>
    if c.isWhitespace then String.mk cur :: splitWsCL [] rest
    else splitWsCL (cur ++ [c]) rest

/-- Rust `str::trim`: strip leading and trailing whitespace. -/
def trimStr (s : String) : String :=
  String.mk (((s.toList.dropWhile Char.isWhitespace).reverse.dropWhile
    Char.isWhitespace).reverse)

/-- The whitespace-separated tokens of a string (Rust `split_whitespace`). -/
def tokensOf (s : String) : List String :=
  (splitWsCL [] s.toList).filter (fun t => t ≠ "")

/-- `pub struct Item(pub String, pub Option<String>)` — an imported item:
a name together with an optional `as`-alias. -/
structure Item where
  name : String
  rename : Option String
deriving DecidableEq, Repr

/-- `impl From<&str> for Item` — lenient item parser: exactly three
whitespace-separated tokens with `as` in the middle yield an aliased item;
any other shape yields the whole trimmed text as an un-aliased name. -/
def Item.ofStr (s : String) : Item :=
  let trimmed := trimStr s
  match tokensOf trimmed with
  | [n, m, a] => if m = "as" then ⟨n, some a⟩ else ⟨trimmed, none⟩
  | _ => ⟨trimmed, none⟩

/-! ## Declarations (`ViewPath`) -/

/-- `pub enum ViewPath` — one import declaration. -/
inductive ViewPath where
  /-- `foo::bar::baz as quux` or `foo::bar::baz`. -/
  | ViewPathSimple (path : List String) (rename : Option String)
  /-- `foo::bar::*`. -/
  | ViewPathGlob (path : List String)
  /-- `foo::bar::{a, b, c}`. -/
  | ViewPathList (path : List String) (items : List Item)
deriving DecidableEq, Repr

/-- `impl From<&str> for ViewPath` — the textual convenience constructor. -/
def ViewPath.ofStr (s : String) : ViewPath :=
  let path := as_path s
  let trimmed_path := path.dropLast
  let last := path.getLastD ""
  if path.length > 1 && last = "*" then
    .ViewPathGlob trimmed_path
  else if last.toList.headD ' ' = '{' && last.toList.getLastD ' ' = '}' then
    let inner := (last.toList.drop 1).dropLast
    let items := (splitOnChar ',' [] inner).map Item.ofStr
    if items.length = 1 && (items.headD ⟨"", none⟩).name = "self" then
      .ViewPathSimple trimmed_path (items.headD ⟨"", none⟩).rename
    else
      .ViewPathList trimmed_path items
  else
    let it := Item.ofStr last
    .ViewPathSimple (trimmed_path ++ [it.name]) it.rename

/-! ## The import trie (`ImportNode`) -/

/-- `pub struct ImportNode` — one node of the import trie. `children` models
the Rust `BTreeMap<String, ImportNode>` as a key-sorted association list. -/
inductive ImportNode where
  | mk (has_self : Bool) (has_glob : Bool) (renames : List String)
      (children : List (String × ImportNode))

def ImportNode.has_self : ImportNode → Bool | .mk s _ _ _ => s
def ImportNode.has_glob : ImportNode → Bool | .mk _ g _ _ => g
def ImportNode.renames : ImportNode → List String | .mk _ _ r _ => r
def ImportNode.children : ImportNode → List (String × ImportNode) | .mk _ _ _ c => c

instance : Inhabited ImportNode := ⟨.mk false false [] []⟩

/-- `ImportNode::new()`. -/
def ImportNode.new : ImportNode := .mk false false [] []

/-- `ImportNode::self_or_rename(rename)`. -/
def ImportNode.self_or_rename (rename : Option String) : ImportNode :=
  .mk rename.isNone false rename.toList []

/-- `ImportNode::just_glob()`. -/
def ImportNode.just_glob : ImportNode := .mk false true [] []

/-- Comparison of characters by scalar value (what Rust's byte-wise string
`Ord` amounts to, since UTF-8 byte order agrees with scalar order). -/
def charLtB (a b : Char) : Bool := a.toNat < b.toNat

/-- Lexicographic comparison of strings as character lists: the order used by
`BTreeMap<String, _>` and `Vec::<String>::sort`. Agrees with `String.lt`
(proved below) but is structurally recursive, hence kernel-computable. -/
def strLtCL : List Char → List Char → Bool
  | [], [] => false
  | [], _ :: _ => true
  | _ :: _, [] => false
  | a :: l1, b :: l2 =>
    if charLtB a b then true
    else if charLtB b a then false
    else strLtCL l1 l2

/-- String comparison (Rust `String: Ord`). -/
def strLt (a b : String) : Bool := strLtCL a.toList b.toList

/-- Insertion into a sorted list (the `String: Ord` order that `BTreeMap` uses);
used for `self.renames.sort()` via `sortStrings`. -/
def insSorted (x : String) : List String → List String
  | [] => [x]
  | y :: ys => if strLt x y then x :: y :: ys else y :: insSorted x ys

/-- `Vec::sort` on strings (insertion sort; extensionally equal to any sort). -/
def sortStrings (l : List String) : List String := l.foldr insSorted []

/-- The `for r in &b.renames { if !self.renames.contains(r) { push } }` loop of
`combine_with`: append each element of the second list that is not already
present in the (growing) accumulator. -/
def pushRenames (acc : List String) : List String → List String
  | [] => acc
  | r :: rest => pushRenames (if acc.contains r then acc else acc ++ [r]) rest

/-- The rename part of `combine_with`: dedup-append then sort. -/
def mergeRenames (a b : List String) : List String := sortStrings (pushRenames a b)

/-- `BTreeMap::get` on the sorted association list (key lookup). -/
def lookupChild : List (String × ImportNode) → String → Option ImportNode
  | [], _ => none
  | (k', v') :: tl, k => if k' = k then some v' else lookupChild tl k

/-- Replace the value bound to an existing key (models mutation through
`BTreeMap::get_mut`; the key's position is unchanged). -/
def replaceChild : List (String × ImportNode) → String → ImportNode →
    List (String × ImportNode)
  | [], _, _ => []
  | (k', v') :: tl, k, v =>
    if k' = k then (k', v) :: tl else (k', v') :: replaceChild tl k v

/-- `BTreeMap::insert` of a fresh key: insert at the sorted position. -/
def insertChild : List (String × ImportNode) → String → ImportNode →
    List (String × ImportNode)
  | [], k, v => [(k, v)]
  | (k', v') :: tl, k, v =>
    if strLt k k' then (k, v) :: (k', v') :: tl else (k', v') :: insertChild tl k v

mutual
/-- `ImportNode::combine_with` — merge node `b` into node `a`:
OR the flags, dedup-union-and-sort the renames, and for every child of `b`
either recursively merge into the matching child of `a` or insert the subtree. -/
def ImportNode.combine_with : ImportNode → ImportNode → ImportNode
  | .mk s g r c, .mk s' g' r' c' =>
    .mk (s || s') (g || g') (mergeRenames r r') (combineChildren c c')

/-- The `for (k, v) in &b.children` loop of `combine_with`. -/
def combineChildren : List (String × ImportNode) → List (String × ImportNode) →
    List (String × ImportNode)
  | acc, [] => acc
  | acc, (k, v) :: rest =>
    match lookupChild acc k with
    | some v' => combineChildren (replaceChild acc k (v'.combine_with v)) rest
    | none => combineChildren (insertChild acc k v) rest
end

/-! ## The combiner (`ImportCombiner`) -/

/-- `pub struct ImportCombiner { root: ImportNode }`. -/
structure ImportCombiner where
  root : ImportNode

/-- `ImportCombiner::new()`. -/
def ImportCombiner.new : ImportCombiner := ⟨ImportNode.new⟩

/-- `add_node_internal`: walk `path` from `n`, creating empty children as
needed (`entry(..).or_insert_with(ImportNode::new)`), and merge `leaf` into
the node addressed by the full path. -/
def addNodeGo : ImportNode → List String → ImportNode → ImportNode
  | n, [], leaf => n.combine_with leaf
  | .mk s g r c, seg :: rest, leaf =>
    .mk s g r
      (match lookupChild c seg with
       | some v => replaceChild c seg (addNodeGo v rest leaf)
       | none => insertChild c seg (addNodeGo ImportNode.new rest leaf))

/-- `ImportCombiner::add_node`. -/
def ImportCombiner.add_node (c : ImportCombiner) (path : List String)
    (node : ImportNode) : ImportCombiner :=
  ⟨addNodeGo c.root path node⟩

/-- `ImportCombiner::add_import` — decompose one declaration into trie
insertions. -/
def ImportCombiner.add_import (c : ImportCombiner) (vp : ViewPath) : ImportCombiner :=
  match vp with
  | .ViewPathGlob p => c.add_node p ImportNode.just_glob
  | .ViewPathSimple p rename => c.add_node p (ImportNode.self_or_rename rename)
  | .ViewPathList p items =>
    items.foldl (fun acc i =>
      if i.name = "self" then acc.add_node p (ImportNode.self_or_rename i.rename)
      else acc.add_node (p ++ [i.name]) (ImportNode.self_or_rename i.rename)) c

/-- `ImportCombiner::add_imports`. -/
def ImportCombiner.add_imports (c : ImportCombiner) (vps : List ViewPath) :
    ImportCombiner :=
  vps.foldl ImportCombiner.add_import c

/-! ## Emission (`get_import_list`) -/

/-- `const CONFIG_MIN_IMPORT_ITEM_LIST_LENGTH: usize = 3`. -/
def CONFIG_MIN_IMPORT_ITEM_LIST_LENGTH : Nat := 3

/-- The `for (child_name, child_node) in &node.children` loop building the
child part of the candidate item list: a bare item per child with `has_self`
(suppressed when this node has a glob), then one aliased item per child
rename. -/
def childItems (hg : Bool) : List (String × ImportNode) → List Item
  | [] => []
  | (k, v) :: rest =>
    ((if v.has_self && !hg then [⟨k, none⟩] else []) ++
      v.renames.map (fun r => ⟨k, some r⟩)) ++ childItems hg rest

/-- The candidate bundle (`use_list` in `get_imports_for_node`): self item,
self-rename items, then the child items. -/
def use_list (node : ImportNode) (sc rc : Bool) : List Item :=
  (if node.has_self && !sc then [⟨"self", none⟩] else []) ++
  (if !rc then node.renames.map (fun r => ⟨"self", some r⟩) else []) ++
  childItems node.has_glob node.children

/-- `let will_use_list = use_list.len() >= CONFIG_MIN_IMPORT_ITEM_LIST_LENGTH`. -/
def will_use_list (node : ImportNode) (sc rc : Bool) : Bool :=
  decide (CONFIG_MIN_IMPORT_ITEM_LIST_LENGTH ≤ (use_list node sc rc).length)

/-- The declarations `get_imports_for_node` pushes at this node itself, before
recursing: the bundle as one `ViewPathList` if it meets the threshold,
otherwise individual `ViewPathSimple`s; then the `ViewPathGlob` if present. -/
def localEmit (node : ImportNode) (sc rc : Bool) (p : List String) : List ViewPath :=
  (if will_use_list node sc rc then [.ViewPathList p (use_list node sc rc)]
   else
     (if node.has_self && !sc then [.ViewPathSimple p none] else []) ++
     (if !rc then node.renames.map (fun r => .ViewPathSimple p (some r)) else [])) ++
  (if node.has_glob then [.ViewPathGlob p] else [])

mutual
/-- `get_imports_for_node` — emit this node's declarations, then recurse into
the children in sorted key order, passing down whether child selves (list
emitted or glob present) and child renames (list emitted) are consumed. -/
def get_imports_for_node : ImportNode → Bool → Bool → List String → List ViewPath
  | .mk hs hg rn c, sc, rc, p =>
    localEmit (.mk hs hg rn c) sc rc p ++
    childImports c (will_use_list (.mk hs hg rn c) sc rc || hg)
      (will_use_list (.mk hs hg rn c) sc rc) p

/-- The `for (child_name, child_node) in &node.children` recursion loop. -/
def childImports : List (String × ImportNode) → Bool → Bool → List String →
    List ViewPath
  | [], _, _, _ => []
  | (k, v) :: rest, sc, rc, p =>
    get_imports_for_node v sc rc (p ++ [k]) ++ childImports rest sc rc p
end

/-- `ImportCombiner::get_import_list`. -/
def ImportCombiner.get_import_list (c : ImportCombiner) : List ViewPath :=
  get_imports_for_node c.root false false []

/-- `pub fn combine_imports(vps: &[&ViewPath]) -> Vec<ViewPath>`. -/
def combine_imports (vps : List ViewPath) : List ViewPath :=
  (ImportCombiner.new.add_imports vps).get_import_list

/-! ## State-threaded emission

`get_imports_for_node` in the source takes `node_path: &mut Path` and
`imports: &mut Vec<ViewPath>`; it pushes the child name before each recursive
call and pops it afterwards. The following version threads both buffers
explicitly, so that the push/pop discipline (the path buffer is restored on
return) is a provable fact rather than a modelling assumption. -/

mutual
/-- State-threaded `get_imports_for_node`: takes and returns the
`(node_path, imports)` buffer pair. -/
def getImportsS : ImportNode → Bool → Bool → List String × List ViewPath →
    List String × List ViewPath
  | .mk hs hg rn c, sc, rc, st =>
    childLoopS c (will_use_list (.mk hs hg rn c) sc rc || hg)
      (will_use_list (.mk hs hg rn c) sc rc)
      (st.1, st.2 ++ localEmit (.mk hs hg rn c) sc rc st.1)

/-- State-threaded child loop: push the child segment, recurse, pop. -/
def childLoopS : List (String × ImportNode) → Bool → Bool →
    List String × List ViewPath → List String × List ViewPath
  | [], _, _, st => st
  | (k, v) :: rest, sc, rc, st =>
    childLoopS rest sc rc
      (((getImportsS v sc rc (st.1 ++ [k], st.2)).1).dropLast,
        (getImportsS v sc rc (st.1 ++ [k], st.2)).2)
end

/-- `get_import_list` through the state-threaded walker. The receiver is
`&self` in the source, so the method can only read the trie; the model
accordingly returns the receiver together with the freshly-built list. -/
def ImportCombiner.get_import_list_st (c : ImportCombiner) :
    ImportCombiner × List ViewPath :=
  (c, (getImportsS c.root false false ([], [])).2)

/-! ## Well-formedness, invariants, and the binding-set denotation -/

/-- The path over which a declaration is made. -/
def ViewPath.path : ViewPath → List String
  | .ViewPathSimple p _ => p
  | .ViewPathGlob p => p
  | .ViewPathList p _ => p

/-- Well-formed input declaration (for the semantic round trip): no path
segment is the keyword `self`. In real import syntax `self` only occurs as a
list item or in final position, which the structured model keeps in
`Item`-form (list items named `self`) — never as a path segment. -/
def ViewPath.wf (vp : ViewPath) : Bool := vp.path.all (fun s => s != "self")

mutual
/-- Trie well-formedness: no child key is the keyword `self` (holds for every
trie built from well-formed declarations, since the combiner never pushes an
item named `self` as a path segment). -/
def WFNode : ImportNode → Bool
  | .mk _ _ _ c => WFChildren c

def WFChildren : List (String × ImportNode) → Bool
  | [] => true
  | (k, v) :: rest => k != "self" && WFNode v && WFChildren rest
end

/-- Strictly ascending list of strings (sorted with no duplicates). -/
def sortedStrs : List String → Bool
  | [] => true
  | [_] => true
  | a :: b :: rest => strLt a b && sortedStrs (b :: rest)

/-- Strictly ascending association-list keys (the `BTreeMap` representation
invariant: sorted, no duplicate keys). -/
def sortedKeys : List (String × ImportNode) → Bool
  | [] => true
  | [_] => true
  | (a, _) :: (b, w) :: rest => strLt a b && sortedKeys ((b, w) :: rest)

mutual
/-- The trie representation invariant, at every reachable node: `renames` is
sorted and duplicate-free, and the children keys are sorted and
duplicate-free. -/
def InvNode : ImportNode → Bool
  | .mk _ _ rn c => sortedStrs rn && sortedKeys c && InvChildren c

def InvChildren : List (String × ImportNode) → Bool
  | [] => true
  | (_, v) :: rest => InvNode v && InvChildren rest
end

/-- The local name a path is bound under when imported bare: its last
segment (empty for the empty path). -/
def lastName (p : List String) : String := p.getLastD ""

/-- The family of (full path, binding name) pairs a glob over `p` provides:
every direct child of `p` under its own name. -/
def globFam (p : List String) : Set (List String × String) :=
  {x | ∃ c, x = (p ++ [c], c)}

/-- The (full path, local binding name) pair denoted by one list item relative
to base path `p`: `self` binds `p` itself, any other name binds the child. -/
def itemPair (p : List String) (it : Item) : List String × String :=
  if it.name = "self" then (p, it.rename.getD (lastName p))
  else (p ++ [it.name], it.rename.getD it.name)

/-- The set of (full path, local binding name) pairs denoted by one
declaration; a glob denotes its whole (infinite) child family. -/
def vpPairs : ViewPath → Set (List String × String)
  | .ViewPathSimple p none => {(p, lastName p)}
  | .ViewPathSimple p (some a) => {(p, a)}
  | .ViewPathGlob p => globFam p
  | .ViewPathList p items => {x | ∃ it ∈ items, x = itemPair p it}

/-- The set of pairs denoted by a declaration list: the union over members. -/
def declsPairs (l : List ViewPath) : Set (List String × String) :=
  {x | ∃ vp ∈ l, x ∈ vpPairs vp}

mutual
/-- The set of pairs recorded in a trie rooted at path `p`: self binding,
rename bindings, glob family, and all children recursively. -/
def nodePairs : ImportNode → List String → Set (List String × String)
  | .mk hs hg rn c, p =>
    (if hs then {(p, lastName p)} else ∅) ∪
    {x | ∃ r ∈ rn, x = (p, r)} ∪
    (if hg then globFam p else ∅) ∪
    childrenPairs c p

def childrenPairs : List (String × ImportNode) → List String →
    Set (List String × String)
  | [], _ => ∅
  | (k, v) :: rest, p => nodePairs v (p ++ [k]) ∪ childrenPairs rest p
end

/-- The sequence of `(path, leaf)` trie insertions a declaration decomposes
into (the calls `add_import` makes to `add_node`, in order). -/
def decomp : ViewPath → List (List String × ImportNode)
  | .ViewPathGlob p => [(p, ImportNode.just_glob)]
  | .ViewPathSimple p rename => [(p, ImportNode.self_or_rename rename)]
  | .ViewPathList p items =>
    items.map (fun i =>
      if i.name = "self" then (p, ImportNode.self_or_rename i.rename)
      else (p ++ [i.name], ImportNode.self_or_rename i.rename))

/-- One `add_node` call, as a fold step over `decomp`. -/
def addLeafStep (t : ImportNode) (pl : List String × ImportNode) : ImportNode :=
  addNodeGo t pl.1 pl.2

/-- A leaf insertion payload: a node with no children (all payloads
`add_import` creates are of this shape). -/
def leafLike (n : ImportNode) : Bool := n.children.isEmpty

/-- A small concrete combiner with a literal root, used to instantiate
theorems about emission at concrete inputs. -/
def demoCombiner : ImportCombiner :=
  ⟨.mk true false [] [("a", .mk true false [] [])]⟩

/-- The children update `add_node_internal` performs at one path step:
`entry(seg)` (lookup) followed by the recursive insertion into the existing
or fresh child. -/
def childUpdate (c : List (String × ImportNode)) (seg : String) (rest : List String)
    (leaf : ImportNode) : List (String × ImportNode) :=
  match lookupChild c seg with
  | some v => replaceChild c seg (addNodeGo v rest leaf)
  | none => insertChild c seg (addNodeGo ImportNode.new rest leaf)

/-- A node whose candidate bundle has three items (meets the threshold). -/
def bigNode : ImportNode := .mk true false ["x", "y"] []

/-- A node whose candidate bundle has exactly two items (below threshold). -/
def smallNode : ImportNode := .mk true false ["x"] []

/-- A node with a glob, a bare child, and an aliased child (for the
glob-absorption instantiation). -/
def globNode : ImportNode :=
  .mk true true [] [("c", .mk true false [] []), ("d", .mk true false ["dd"] [])]

/-! # Theorems

## Order lemmas for the string comparison -/

theorem charEq_of_toNat_eq {a b : Char} (h : a.toNat = b.toNat) : a = b :=
  Char.eq_of_val_eq (UInt32.ext h)

theorem strLtCL_irrefl : ∀ l, strLtCL l l = false
  | [] => rfl
  | _ :: l => by simp [strLtCL, charLtB, strLtCL_irrefl l]

theorem strLtCL_asymm : ∀ l1 l2, strLtCL l1 l2 = true → strLtCL l2 l1 = false
  | [], [] => by simp [strLtCL]
  | [], _ :: _ => by simp [strLtCL]
  | _ :: _, [] => by simp [strLtCL]
  | a :: l1, b :: l2 => by
    simp only [strLtCL, charLtB, decide_eq_true_eq]
    intro h
    split_ifs at h ⊢ <;>
      first
      | rfl
      | omega
      | exact strLtCL_asymm l1 l2 h
      | simp at h

theorem strLtCL_trans : ∀ l1 l2 l3, strLtCL l1 l2 = true → strLtCL l2 l3 = true →
    strLtCL l1 l3 = true
  | [], [], _ => by simp [strLtCL]
  | [], _ :: _, [] => by simp [strLtCL]
  | [], _ :: _, _ :: _ => by simp [strLtCL]
  | _ :: _, [], _ => by simp [strLtCL]
  | _ :: _, _ :: _, [] => by simp [strLtCL]
  | a :: l1, b :: l2, c :: l3 => by
    simp only [strLtCL, charLtB, decide_eq_true_eq]
    intro h1 h2
    split_ifs at h1 h2 ⊢ <;> try omega
    all_goals try simp_all
    exact strLtCL_trans l1 l2 l3 h1 h2

theorem strLtCL_conn : ∀ l1 l2, strLtCL l1 l2 = false → strLtCL l2 l1 = false → l1 = l2
  | [], [] => by simp
  | [], _ :: _ => by simp [strLtCL]
  | _ :: _, [] => by simp [strLtCL]
  | a :: l1, b :: l2 => by
    simp only [strLtCL, charLtB, decide_eq_true_eq]
    intro h1 h2
    split_ifs at h1 h2 <;> try omega
    rename_i hab hba
    have : a = b := charEq_of_toNat_eq (by omega)
    subst this
    exact congrArg (a :: ·) (strLtCL_conn l1 l2 h1 h2)

theorem strEq_of_toList_eq : ∀ {s t : String}, s.toList = t.toList → s = t
  | ⟨_⟩, ⟨_⟩, h => by simpa [String.toList] using congrArg String.mk h

theorem strLt_irrefl (a : String) : strLt a a = false := strLtCL_irrefl _

theorem strLt_asymm {a b : String} (h : strLt a b = true) : strLt b a = false :=
  strLtCL_asymm _ _ h

theorem strLt_trans {a b c : String} (h1 : strLt a b = true) (h2 : strLt b c = true) :
    strLt a c = true := strLtCL_trans _ _ _ h1 h2

theorem strLt_conn {a b : String} (h1 : strLt a b = false) (h2 : strLt b a = false) :
    a = b := strEq_of_toList_eq (strLtCL_conn _ _ h1 h2)

theorem strLt_total (a b : String) : strLt a b = true ∨ strLt b a = true ∨ a = b := by
  rcases h1 : strLt a b with _ | _
  · rcases h2 : strLt b a with _ | _
    · exact Or.inr (Or.inr (strLt_conn h1 h2))
    · exact Or.inr (Or.inl rfl)
  · exact Or.inl rfl

/-! ## Sorting and rename-merge lemmas -/

theorem mem_insSorted {x y : String} : ∀ {l}, y ∈ insSorted x l ↔ y = x ∨ y ∈ l
  | [] => by simp [insSorted]
  | z :: l => by
    simp only [insSorted]
    split_ifs
    · simp [or_comm, or_assoc, or_left_comm]
    · simp [mem_insSorted (l := l), or_comm, or_assoc, or_left_comm]

theorem insSorted_perm (x : String) : ∀ l, List.Perm (insSorted x l) (x :: l)
  | [] => by simp [insSorted]
  | z :: l => by
    simp only [insSorted]
    split_ifs
    · exact List.Perm.refl _
    · exact ((insSorted_perm x l).cons z).trans (List.Perm.swap x z l)

theorem sortStrings_perm : ∀ l : List String, List.Perm (sortStrings l) l
  | [] => List.Perm.refl _
  | x :: l => by
    have h1 : sortStrings (x :: l) = insSorted x (sortStrings l) := rfl
    rw [h1]
    exact (insSorted_perm x (sortStrings l)).trans ((sortStrings_perm l).cons x)

theorem mem_sortStrings {x : String} {l : List String} :
    x ∈ sortStrings l ↔ x ∈ l := (sortStrings_perm l).mem_iff

theorem nodup_sortStrings {l : List String} (h : l.Nodup) : (sortStrings l).Nodup :=
  (sortStrings_perm l).nodup_iff.mpr h

/-- `a ≤ b` for the string order, as a Bool-free relation. -/
theorem pairwise_insSorted {x : String} :
    ∀ {l}, l.Pairwise (fun a b => strLt b a = false) →
      (insSorted x l).Pairwise (fun a b => strLt b a = false)
  | [], _ => by simp [insSorted]
  | z :: l, h => by
    rcases List.pairwise_cons.mp h with ⟨hz, hl⟩
    simp only [insSorted]
    split_ifs with hx
    · refine List.pairwise_cons.mpr ⟨?_, h⟩
      intro b hb
      rcases List.mem_cons.mp hb with rfl | hb
      · exact strLt_asymm hx
      · rcases h3 : strLt b x with _ | _
        · rfl
        · have := strLt_trans h3 hx
          rw [hz b hb] at this
          exact absurd this (by simp)
    · refine List.pairwise_cons.mpr ⟨?_, pairwise_insSorted hl⟩
      intro b hb
      rcases mem_insSorted.mp hb with rfl | hb
      · exact Bool.not_eq_true _ ▸ (by simpa using hx)
      · exact hz b hb

theorem pairwise_sortStrings : ∀ l : List String,
    (sortStrings l).Pairwise (fun a b => strLt b a = false)
  | [] => by simp [sortStrings]
  | x :: l => by
    have h1 : sortStrings (x :: l) = insSorted x (sortStrings l) := rfl
    rw [h1]
    exact pairwise_insSorted (pairwise_sortStrings l)

theorem sortedStrs_cons {a : String} {l : List String} :
    sortedStrs (a :: l) = true ↔
      (∀ b ∈ l.head?, strLt a b = true) ∧ sortedStrs l = true := by
  cases l with
  | nil => simp [sortedStrs]
  | cons b l => simp [sortedStrs, Bool.and_eq_true, and_comm]

theorem sortedStrs_pairwise : ∀ {l : List String}, sortedStrs l = true →
    l.Pairwise (fun a b => strLt a b = true)
  | [] => by simp
  | [a] => by simp
  | a :: b :: l => by
    intro h
    have h' : strLt a b = true ∧ sortedStrs (b :: l) = true := by
      simpa [sortedStrs, Bool.and_eq_true] using h
    rcases h' with ⟨hab, hl⟩
    have ih := sortedStrs_pairwise hl
    refine List.pairwise_cons.mpr ⟨?_, ih⟩
    intro c hc
    rcases List.mem_cons.mp hc with rfl | hc
    · exact hab
    · exact strLt_trans hab ((List.pairwise_cons.mp ih).1 c hc)

theorem pairwise_sortedStrs : ∀ {l : List String},
    l.Pairwise (fun a b => strLt a b = true) → sortedStrs l = true
  | [] => fun _ => rfl
  | [_] => fun _ => rfl
  | a :: b :: l => by
    intro h
    rcases List.pairwise_cons.mp h with ⟨ha, h2⟩
    simp only [sortedStrs, Bool.and_eq_true]
    exact ⟨ha b (by simp), pairwise_sortedStrs h2⟩

theorem sortedStrs_of_le_nodup {l : List String}
    (hle : l.Pairwise (fun a b => strLt b a = false)) (hnd : l.Nodup) :
    sortedStrs l = true := by
  refine pairwise_sortedStrs ?_
  have := List.Pairwise.and hle hnd
  refine this.imp ?_
  rintro a b ⟨h1, h2⟩
  rcases h3 : strLt a b with _ | _
  · exact absurd (strLt_conn h3 h1) h2
  · rfl

theorem sortedStrs_nodup {l : List String} (h : sortedStrs l = true) : l.Nodup := by
  refine (sortedStrs_pairwise h).imp ?_
  intro a b hab
  intro hEq
  subst hEq
  simp [strLt_irrefl] at hab

/-- Two strictly sorted lists with the same members are equal. -/
theorem sortedStrs_eq_of_mem : ∀ {l1 l2 : List String}, sortedStrs l1 = true →
    sortedStrs l2 = true → (∀ x, x ∈ l1 ↔ x ∈ l2) → l1 = l2
  | [], [], _, _, _ => rfl
  | [], b :: l2, _, _, hm => by simpa using (hm b).mpr (by simp)
  | a :: l1, [], _, _, hm => by simpa using (hm a).mp (by simp)
  | a :: l1, b :: l2, h1, h2, hm => by
    have p1 := sortedStrs_pairwise h1
    have p2 := sortedStrs_pairwise h2
    have hab : a = b := by
      rcases List.mem_cons.mp ((hm a).mp (by simp)) with h | h
      · exact h
      · rcases List.mem_cons.mp ((hm b).mpr (by simp)) with h' | h'
        · exact h'.symm
        · have hba := (List.pairwise_cons.mp p1).1 b h'
          have hab := (List.pairwise_cons.mp p2).1 a h
          rw [strLt_asymm hab] at hba
          exact absurd hba (by simp)
    subst hab
    have htl : ∀ x, x ∈ l1 ↔ x ∈ l2 := by
      intro x
      constructor
      · intro hx
        rcases List.mem_cons.mp ((hm x).mp (List.mem_cons_of_mem a hx)) with rfl | h
        · have := (List.pairwise_cons.mp p1).1 x hx
          simp [strLt_irrefl] at this
        · exact h
      · intro hx
        rcases List.mem_cons.mp ((hm x).mpr (List.mem_cons_of_mem a hx)) with rfl | h
        · have := (List.pairwise_cons.mp p2).1 x hx
          simp [strLt_irrefl] at this
        · exact h
    exact congrArg (a :: ·) (sortedStrs_eq_of_mem
      (sortedStrs_cons.mp h1).2 (sortedStrs_cons.mp h2).2 htl)

theorem mem_pushRenames {x : String} : ∀ {l acc}, x ∈ pushRenames acc l ↔ x ∈ acc ∨ x ∈ l
  | [], acc => by simp [pushRenames]
  | r :: l, acc => by
    simp only [pushRenames]
    rw [mem_pushRenames (l := l)]
    split_ifs with h
    · rw [List.elem_iff] at h
      constructor
      · rintro (h1 | h1)
        · exact Or.inl h1
        · exact Or.inr (List.mem_cons_of_mem r h1)
      · rintro (h1 | h1)
        · exact Or.inl h1
        · rcases List.mem_cons.mp h1 with rfl | h1
          · exact Or.inl h
          · exact Or.inr h1
    · simp only [List.mem_append, List.mem_singleton, List.mem_cons]
      tauto

theorem nodup_pushRenames : ∀ (l) {acc : List String}, acc.Nodup →
    (pushRenames acc l).Nodup
  | [], _, h => h
  | r :: l, acc, h => by
    simp only [pushRenames]
    split_ifs with hc
    · exact nodup_pushRenames l h
    · refine nodup_pushRenames l ?_
      rw [List.elem_iff] at hc
      simpa [List.nodup_append] using ⟨h, hc⟩

theorem mem_mergeRenames {x : String} {a b : List String} :
    x ∈ mergeRenames a b ↔ x ∈ a ∨ x ∈ b := by
  rw [mergeRenames, mem_sortStrings, mem_pushRenames]

theorem nodup_mergeRenames {a b : List String} (h : a.Nodup) :
    (mergeRenames a b).Nodup := nodup_sortStrings (nodup_pushRenames b h)

theorem sortedStrs_mergeRenames {a b : List String} (h : a.Nodup) :
    sortedStrs (mergeRenames a b) = true :=
  sortedStrs_of_le_nodup (pairwise_sortStrings _) (nodup_mergeRenames h)

/-! ## C7: leniency of the item parser -/

/-- C7: item parsing never fails. A text whose whitespace-separated tokens are
exactly `[name, "as", alias]` parses to `Item(name, some alias)`; any text not
of that 3-token shape parses to an `Item` whose name is the whole trimmed
(possibly multi-word) text and whose alias is absent. -/
theorem itemParse_lenient (s : String) :
    (∀ n a, tokensOf (trimStr s) = [n, "as", a] → Item.ofStr s = ⟨n, some a⟩) ∧
    ((¬ ∃ n a, tokensOf (trimStr s) = [n, "as", a]) →
      Item.ofStr s = ⟨trimStr s, none⟩) := by
  constructor
  · intro n a h
    simp [Item.ofStr, h]
  · intro h
    rcases htk : tokensOf (trimStr s) with _ | ⟨n, _ | ⟨m, _ | ⟨a, _ | ⟨x, tl⟩⟩⟩⟩
    · simp [Item.ofStr, htk]
    · simp [Item.ofStr, htk]
    · simp [Item.ofStr, htk]
    · have hm : m ≠ "as" := fun hEq => h ⟨n, a, by rw [htk, hEq]⟩
      simp [Item.ofStr, htk, hm]
    · simp [Item.ofStr, htk]

/-- Witness for C7 at concrete inputs: an aliased item, a multi-word
non-`as` item, and a 3-token item whose middle token is not `as`. -/
theorem itemParse_lenient_witness :
    Item.ofStr " d  as   dd " = ⟨"d", some "dd"⟩ ∧
    Item.ofStr "a b c d" = ⟨"a b c d", none⟩ ∧
    Item.ofStr "x y z" = ⟨"x y z", none⟩ := by
  refine ⟨(itemParse_lenient " d  as   dd ").1 "d" "dd" (by decide), ?_, ?_⟩
  · refine (itemParse_lenient "a b c d").2 ?_
    rintro ⟨n, a, h⟩
    rw [show tokensOf (trimStr "a b c d") = ["a", "b", "c", "d"] from by decide] at h
    have hl := congrArg List.length h
    simp at hl
  · refine (itemParse_lenient "x y z").2 ?_
    rintro ⟨n, a, h⟩
    rw [show tokensOf (trimStr "x y z") = ["x", "y", "z"] from by decide] at h
    injection h with h1 h2
    injection h2 with h3 h4
    exact absurd h3.symm (by decide)

/-! ## C6: parsing of trailing `*` -/

/-- Counterexample to C6 as stated: the single-segment input string `*` does
not parse to `Glob([])`; the `path.len() > 1` guard sends it to the
`ViewPathSimple` branch instead. -/
theorem starParse_counterexample :
    (as_path "*").getLastD "" = "*" ∧
    ViewPath.ofStr "*" ≠ .ViewPathGlob [] ∧
    ViewPath.ofStr "*" = .ViewPathSimple ["*"] none := by decide

/-- C6 (amended): for every input string with at least two `::`-separated
segments whose last segment is exactly `*`, the textual constructor returns
`Glob` of all segments but the last. (The single-segment input `*` instead
parses as `Simple(["*"], none)`.) -/
theorem starParse_glob (s : String) (h1 : 2 ≤ (as_path s).length)
    (h2 : (as_path s).getLastD "" = "*") :
    ViewPath.ofStr s = .ViewPathGlob ((as_path s).dropLast) := by
  simp only [ViewPath.ofStr]
  rw [if_pos (show ((decide ((as_path s).length > 1)) &&
    (decide ((as_path s).getLastD "" = "*"))) = true by
      simp only [Bool.and_eq_true, decide_eq_true_eq]
      exact ⟨by omega, h2⟩)]

/-- Witness for C6 (amended) at the concrete input `a::*`. -/
theorem starParse_glob_witness :
    2 ≤ (as_path "a::*").length ∧ (as_path "a::*").getLastD "" = "*" ∧
    ViewPath.ofStr "a::*" = .ViewPathGlob ((as_path "a::*").dropLast) :=
  ⟨by decide, by decide, starParse_glob "a::*" (by decide) (by decide)⟩

/-! ## C5: the spec's two-item scenario -/

/-- Counterexample to C5 as stated: on inputs `a::b::{self, c, d, d as dd, e}`
and `a::b::*` the combiner does not return
`[a::b::{self, d as dd}, a::b::*]`. -/
theorem scenario_counterexample :
    combine_imports [ViewPath.ofStr "a::b::{self, c, d, d as dd, e}",
        ViewPath.ofStr "a::b::*"] ≠
      [ViewPath.ofStr "a::b::{self, d as dd}", ViewPath.ofStr "a::b::*"] := by
  decide

/-- C5 (amended): on those inputs the candidate bundle at `a::b` is
`[self, d as dd]` — only two items, below the list threshold — so the
combiner emits a bare `a::b`, the glob, and a separate `a::b::d as dd`. -/
theorem scenario_actual :
    combine_imports [ViewPath.ofStr "a::b::{self, c, d, d as dd, e}",
        ViewPath.ofStr "a::b::*"] =
      [.ViewPathSimple ["a", "b"] none, .ViewPathGlob ["a", "b"],
        .ViewPathSimple ["a", "b", "d"] (some "dd")] := by
  decide

/-! ## Emission structure lemmas -/

theorem gifn_eq (n : ImportNode) (sc rc : Bool) (p : List String) :
    get_imports_for_node n sc rc p =
      localEmit n sc rc p ++
        childImports n.children (will_use_list n sc rc || n.has_glob)
          (will_use_list n sc rc) p := by
  cases n
  simp [get_imports_for_node, ImportNode.children, ImportNode.has_glob]

theorem localEmit_path {n : ImportNode} {sc rc : Bool} {p : List String} {vp : ViewPath}
    (h : vp ∈ localEmit n sc rc p) : vp.path = p := by
  simp only [localEmit, List.mem_append] at h
  rcases h with h | h <;> split_ifs at h <;>
    first
      | (simp only [List.mem_singleton] at h; subst h; rfl)
      | (rcases List.mem_append.mp h with h | h <;>
          first
            | (simp only [List.mem_singleton] at h; subst h; rfl)
            | (rcases List.mem_map.mp h with ⟨r, hr, rfl⟩; rfl)
            | simp at h)
      | simp at h

mutual
theorem gifn_path : ∀ (n : ImportNode) (sc rc : Bool) (p : List String) (vp : ViewPath),
    vp ∈ get_imports_for_node n sc rc p → ∃ q, vp.path = p ++ q
  | .mk hs hg rn c, sc, rc, p, vp => by
    intro h
    rw [gifn_eq] at h
    rcases List.mem_append.mp h with h | h
    · exact ⟨[], by rw [localEmit_path h, List.append_nil]⟩
    · rcases childImports_path c _ _ p vp h with ⟨k, q, hq⟩
      exact ⟨k :: q, hq⟩

theorem childImports_path : ∀ (cs : List (String × ImportNode)) (sc rc : Bool)
    (p : List String) (vp : ViewPath),
    vp ∈ childImports cs sc rc p → ∃ k q, vp.path = p ++ k :: q
  | [], _, _, _, _ => by simp [childImports]
  | (k, v) :: rest, sc, rc, p, vp => by
    intro h
    rcases List.mem_append.mp (by simpa [childImports] using h) with h | h
    · rcases gifn_path v sc rc (p ++ [k]) vp h with ⟨q, hq⟩
      exact ⟨k, q, by simpa using hq⟩
    · exact childImports_path rest sc rc p vp h
end

/-- Declarations in the output whose path is exactly the node's own path come
from the node's local emission, not from the children. -/
theorem mem_at_own_path {n : ImportNode} {sc rc : Bool} {p : List String} {vp : ViewPath}
    (h : vp ∈ get_imports_for_node n sc rc p) (hp : vp.path = p) :
    vp ∈ localEmit n sc rc p := by
  rw [gifn_eq] at h
  rcases List.mem_append.mp h with h | h
  · exact h
  · rcases childImports_path _ _ _ _ _ h with ⟨k, q, hq⟩
    rw [hp] at hq
    exact absurd (congrArg List.length hq) (by simp)

/-- A declaration of a direct child's exact path found in the child loop comes
from that child's local emission. -/
theorem childImports_at_child : ∀ {cs : List (String × ImportNode)} {sc rc : Bool}
    {p : List String} {k : String} {vp : ViewPath},
    vp ∈ childImports cs sc rc p → vp.path = p ++ [k] →
    ∃ v, (k, v) ∈ cs ∧ vp ∈ localEmit v sc rc (p ++ [k])
  | [], _, _, _, _, _, h, _ => by simp [childImports] at h
  | (k', v') :: rest, sc, rc, p, k, vp, h, hp => by
    rcases List.mem_append.mp (by simpa [childImports] using h) with h | h
    · rcases gifn_path v' sc rc (p ++ [k']) vp h with ⟨q, hq⟩
      have h3 : p ++ [k] = p ++ ([k'] ++ q) := by
        rw [← hp, hq, List.append_assoc]
      have h4 : [k] = k' :: q := by simpa using List.append_cancel_left h3
      have hk : k' = k := by injection h4 with h5 h6; exact h5.symm
      subst hk
      exact ⟨v', List.mem_cons_self _ _, mem_at_own_path h hp⟩
    · rcases childImports_at_child h hp with ⟨v, hv, hloc⟩
      exact ⟨v, List.mem_cons_of_mem _ hv, hloc⟩

/-- Lifting a child's emission into the child loop's output. -/
theorem mem_childImports_of_child : ∀ {cs : List (String × ImportNode)} {sc rc : Bool}
    {p : List String} {k : String} {v : ImportNode} {vp : ViewPath},
    (k, v) ∈ cs → vp ∈ get_imports_for_node v sc rc (p ++ [k]) →
    vp ∈ childImports cs sc rc p
  | [], _, _, _, _, _, _, h, _ => by simp at h
  | (k', v') :: rest, sc, rc, p, k, v, vp, hm, h => by
    rcases List.mem_cons.mp hm with hEq | hm
    · injection hEq with h1 h2
      subst h1; subst h2
      simp only [childImports, List.mem_append]
      exact Or.inl h
    · simp only [childImports, List.mem_append]
      exact Or.inr (mem_childImports_of_child hm h)

/-! ## C10: `get_import_list` is read-only -/

mutual
theorem getImportsS_spec : ∀ (n : ImportNode) (sc rc : Bool)
    (st : List String × List ViewPath),
    getImportsS n sc rc st = (st.1, st.2 ++ get_imports_for_node n sc rc st.1)
  | .mk hs hg rn c, sc, rc, st => by
    rw [getImportsS, childLoopS_spec c _ _ _, gifn_eq]
    simp [ImportNode.children, ImportNode.has_glob, List.append_assoc]

theorem childLoopS_spec : ∀ (cs : List (String × ImportNode)) (sc rc : Bool)
    (st : List String × List ViewPath),
    childLoopS cs sc rc st = (st.1, st.2 ++ childImports cs sc rc st.1)
  | [], _, _, st => by simp [childLoopS, childImports]
  | (k, v) :: rest, sc, rc, st => by
    rw [childLoopS, getImportsS_spec v sc rc _, childLoopS_spec rest sc rc _]
    simp [childImports, List.append_assoc, List.dropLast_concat]
end

/-- C10: emission does not modify the combiner. The walker's `node_path`
buffer is restored on return (the push/pop discipline), the `imports` buffer
is only appended to, the returned combiner state is the receiver itself
(the Rust method takes `&self` and cannot write the trie), and two successive
calls with no intervening insertion return the same output list. -/
theorem getImportList_readonly (c : ImportCombiner) :
    (∀ (n : ImportNode) (sc rc : Bool) (st : List String × List ViewPath),
      (getImportsS n sc rc st).1 = st.1 ∧
      (getImportsS n sc rc st).2 = st.2 ++ get_imports_for_node n sc rc st.1) ∧
    c.get_import_list_st.1 = c ∧
    c.get_import_list_st.2 = c.get_import_list ∧
    (c.get_import_list_st.1).get_import_list_st.2 = c.get_import_list_st.2 := by
  refine ⟨fun n sc rc st => ?_, rfl, ?_, ?_⟩
  · rw [getImportsS_spec]
    exact ⟨rfl, rfl⟩
  · rw [ImportCombiner.get_import_list_st]
    rw [getImportsS_spec]
    simp [ImportCombiner.get_import_list]
  · rfl

/-! ## C8: the empty path and the root node -/

/-- C8: a declaration over the empty path records its state directly on the
root node (self flag, glob flag, renames merged into the root's renames,
children untouched), and emission treats the root like any other node: the
output is the root's local declarations (at the empty path) followed by the
children's declarations, all of which are at nonempty paths. -/
theorem emptyPath_root (c : ImportCombiner) (r : Option String) (a : String) :
    (c.add_import (.ViewPathSimple [] none)).root.has_self = true ∧
    (c.add_import (.ViewPathGlob [])).root.has_glob = true ∧
    (c.add_import (.ViewPathSimple [] (some a))).root.renames =
      mergeRenames c.root.renames [a] ∧
    (c.add_import (.ViewPathSimple [] r)).root.children = c.root.children ∧
    c.get_import_list =
      localEmit c.root false false [] ++
        childImports c.root.children
          (will_use_list c.root false false || c.root.has_glob)
          (will_use_list c.root false false) [] ∧
    (∀ vp ∈ childImports c.root.children
        (will_use_list c.root false false || c.root.has_glob)
        (will_use_list c.root false false) [], vp.path ≠ []) := by
  rcases c with ⟨root⟩
  cases root with
  | mk hs hg rn ch =>
    refine ⟨?_, ?_, ?_, ?_, ?_, ?_⟩
    · simp [ImportCombiner.add_import, ImportCombiner.add_node, addNodeGo,
        ImportNode.combine_with, ImportNode.self_or_rename, ImportNode.has_self]
    · simp [ImportCombiner.add_import, ImportCombiner.add_node, addNodeGo,
        ImportNode.combine_with, ImportNode.just_glob, ImportNode.has_glob]
    · simp [ImportCombiner.add_import, ImportCombiner.add_node, addNodeGo,
        ImportNode.combine_with, ImportNode.self_or_rename, ImportNode.renames,
        Option.toList]
    · cases r <;>
        simp [ImportCombiner.add_import, ImportCombiner.add_node, addNodeGo,
          ImportNode.combine_with, ImportNode.self_or_rename, ImportNode.children,
          combineChildren]
    · exact gifn_eq _ false false []
    · intro vp hvp
      rcases childImports_path _ _ _ _ _ hvp with ⟨k, q, hq⟩
      rw [hq]
      simp

/-- Witness for C8 at a concrete combiner with a literal root: the final
conjunct instantiated at the child declaration `a` (path `["a"]`). -/
theorem emptyPath_root_witness :
    (ViewPath.ViewPathSimple ["a"] none ∈ childImports demoCombiner.root.children
        (will_use_list demoCombiner.root false false || demoCombiner.root.has_glob)
        (will_use_list demoCombiner.root false false) []) ∧
    (ViewPath.ViewPathSimple ["a"] none).path ≠ [] ∧
    (demoCombiner.add_import (.ViewPathSimple [] none)).root.has_self = true := by
  refine ⟨by decide, ?_, ?_⟩
  · exact (emptyPath_root demoCombiner none "z").2.2.2.2.2
      (ViewPath.ViewPathSimple ["a"] none) (by decide)
  · exact (emptyPath_root demoCombiner none "z").1

/-! ## Bundle membership lemmas -/

theorem mem_childItems : ∀ (cs : List (String × ImportNode)) (hg : Bool) (it : Item),
    it ∈ childItems hg cs ↔
      ∃ k v, (k, v) ∈ cs ∧
        ((v.has_self = true ∧ hg = false ∧ it = ⟨k, none⟩) ∨
          (∃ r ∈ v.renames, it = ⟨k, some r⟩))
  | [], hg, it => by simp [childItems]
  | (k0, v0) :: rest, hg, it => by
    rw [childItems]
    constructor
    · intro h
      rcases List.mem_append.mp h with h | h
      · rcases List.mem_append.mp h with h | h
        · split_ifs at h with hc
          · simp only [List.mem_singleton] at h
            have hc' : v0.has_self = true ∧ hg = false := by
              simpa [Bool.and_eq_true] using hc
            exact ⟨k0, v0, List.mem_cons_self _ _, Or.inl ⟨hc'.1, hc'.2, h⟩⟩
          · simp at h
        · rcases List.mem_map.mp h with ⟨r, hr, rfl⟩
          exact ⟨k0, v0, List.mem_cons_self _ _, Or.inr ⟨r, hr, rfl⟩⟩
      · rcases (mem_childItems rest hg it).mp h with ⟨k, v, hm, hcase⟩
        exact ⟨k, v, List.mem_cons_of_mem _ hm, hcase⟩
    · rintro ⟨k, v, hm, hcase⟩
      rcases List.mem_cons.mp hm with hEq | hm
      · injection hEq with h1 h2
        subst h1; subst h2
        rcases hcase with ⟨hs, hgf, rfl⟩ | ⟨r, hr, rfl⟩
        · refine List.mem_append.mpr (Or.inl (List.mem_append.mpr (Or.inl ?_)))
          rw [if_pos (by simp [hs, hgf])]
          simp
        · exact List.mem_append.mpr (Or.inl (List.mem_append.mpr (Or.inr
            (List.mem_map.mpr ⟨r, hr, rfl⟩))))
      · exact List.mem_append.mpr (Or.inr ((mem_childItems rest hg it).mpr
          ⟨k, v, hm, hcase⟩))

theorem mem_use_list (n : ImportNode) (sc rc : Bool) (it : Item) :
    it ∈ use_list n sc rc ↔
      (n.has_self = true ∧ sc = false ∧ it = ⟨"self", none⟩) ∨
      (rc = false ∧ ∃ r ∈ n.renames, it = ⟨"self", some r⟩) ∨
      it ∈ childItems n.has_glob n.children := by
  unfold use_list
  constructor
  · intro h
    rcases List.mem_append.mp h with h | h
    · rcases List.mem_append.mp h with h | h
      · split_ifs at h with hc
        · simp only [List.mem_singleton] at h
          have hc' : n.has_self = true ∧ sc = false := by
            simpa [Bool.and_eq_true] using hc
          exact Or.inl ⟨hc'.1, hc'.2, h⟩
        · simp at h
      · split_ifs at h with hc
        · rcases List.mem_map.mp h with ⟨r, hr, rfl⟩
          exact Or.inr (Or.inl ⟨by simpa using hc, r, hr, rfl⟩)
        · simp at h
    · exact Or.inr (Or.inr h)
  · rintro (⟨hs, hsc, rfl⟩ | ⟨hrc, r, hr, rfl⟩ | h)
    · refine List.mem_append.mpr (Or.inl (List.mem_append.mpr (Or.inl ?_)))
      rw [if_pos (by simp [hs, hsc])]
      simp
    · refine List.mem_append.mpr (Or.inl (List.mem_append.mpr (Or.inr ?_)))
      rw [if_pos (by simp [hrc])]
      exact List.mem_map.mpr ⟨r, hr, rfl⟩
    · exact List.mem_append.mpr (Or.inr h)

theorem will_use_list_iff {n : ImportNode} {sc rc : Bool} :
    will_use_list n sc rc = true ↔
      CONFIG_MIN_IMPORT_ITEM_LIST_LENGTH ≤ (use_list n sc rc).length := by
  simp [will_use_list]

theorem localEmit_pos {n : ImportNode} {sc rc : Bool} {p : List String}
    (hw : will_use_list n sc rc = true) :
    localEmit n sc rc p =
      .ViewPathList p (use_list n sc rc) ::
        (if n.has_glob then [.ViewPathGlob p] else []) := by
  rw [localEmit, hw]
  simp

theorem localEmit_neg {n : ImportNode} {sc rc : Bool} {p : List String}
    (hw : will_use_list n sc rc = false) :
    localEmit n sc rc p =
      ((if n.has_self && !sc then [.ViewPathSimple p none] else []) ++
        (if !rc then n.renames.map (fun r => .ViewPathSimple p (some r)) else [])) ++
      (if n.has_glob then [.ViewPathGlob p] else []) := by
  rw [localEmit, hw]
  simp

theorem list_mem_localEmit {n : ImportNode} {sc rc : Bool} {p p' : List String}
    {items : List Item} (h : .ViewPathList p' items ∈ localEmit n sc rc p) :
    will_use_list n sc rc = true ∧ p' = p ∧ items = use_list n sc rc := by
  rcases hw : will_use_list n sc rc with _ | _
  · rw [localEmit_neg hw] at h
    exfalso
    rcases List.mem_append.mp h with h | h
    · rcases List.mem_append.mp h with h | h <;> split_ifs at h <;>
        first
          | simp at h
          | (rcases List.mem_map.mp h with ⟨r, hr, hEq⟩; exact ViewPath.noConfusion hEq)
  
    · split_ifs at h <;> simp at h
  · rw [localEmit_pos hw] at h
    rcases List.mem_cons.mp h with hEq | h
    · injection hEq with h1 h2
      exact ⟨rfl, h1, h2⟩
    · exfalso
      split_ifs at h <;> simp at h

theorem simple_none_mem_localEmit {n : ImportNode} {sc rc : Bool} {p q : List String}
    (h : .ViewPathSimple q none ∈ localEmit n sc rc p) :
    n.has_self = true ∧ sc = false := by
  rcases hw : will_use_list n sc rc with _ | _
  · rw [localEmit_neg hw] at h
    rcases List.mem_append.mp h with h | h
    · rcases List.mem_append.mp h with h | h
      · split_ifs at h with hc
        · simpa [Bool.and_eq_true] using hc
        · simp at h
      · split_ifs at h with hc
        · exfalso
          rcases List.mem_map.mp h with ⟨r, hr, hEq⟩
          injection hEq with h1 h2
          exact Option.noConfusion h2
        · simp at h
    · exfalso
      split_ifs at h <;> simp at h
  · exfalso
    rw [localEmit_pos hw] at h
    rcases List.mem_cons.mp h with hEq | h
    · exact ViewPath.noConfusion hEq
    · split_ifs at h <;> simp at h

/-! ## C4: the list threshold rule -/

/-- C4: if the candidate bundle reaches the threshold (3 items), the node
emits exactly one `ViewPathList` carrying the whole bundle, and the children
recurse with both self and renames consumed. Below the threshold (in
particular with exactly 2 items) no `ViewPathList` at this node's path occurs
anywhere in the node's output; the needed bindings are emitted as individual
`ViewPathSimple`s at this path, and the children recurse unconsumed (except
that a glob still consumes child selves). -/
theorem threshold_rule (n : ImportNode) (sc rc : Bool) (p : List String) :
    (CONFIG_MIN_IMPORT_ITEM_LIST_LENGTH ≤ (use_list n sc rc).length →
      get_imports_for_node n sc rc p =
        .ViewPathList p (use_list n sc rc) ::
          ((if n.has_glob then [.ViewPathGlob p] else []) ++
            childImports n.children true true p)) ∧
    ((use_list n sc rc).length < CONFIG_MIN_IMPORT_ITEM_LIST_LENGTH →
      (∀ items, .ViewPathList p items ∉ get_imports_for_node n sc rc p) ∧
      get_imports_for_node n sc rc p =
        ((if n.has_self && !sc then [.ViewPathSimple p none] else []) ++
          (if !rc then n.renames.map (fun r => .ViewPathSimple p (some r)) else [])) ++
        (if n.has_glob then [.ViewPathGlob p] else []) ++
        childImports n.children n.has_glob false p) := by
  constructor
  · intro h3
    have hw : will_use_list n sc rc = true := will_use_list_iff.mpr h3
    rw [gifn_eq, localEmit_pos hw, hw]
    simp
  · intro h3
    have hw : will_use_list n sc rc = false := by
      rcases h : will_use_list n sc rc with _ | _
      · rfl
      · exact absurd (will_use_list_iff.mp h) (by omega)
    constructor
    · intro items hmem
      have hloc := mem_at_own_path hmem rfl
      have := (list_mem_localEmit hloc).1
      rw [hw] at this
      exact Bool.noConfusion this
    · rw [gifn_eq, localEmit_neg hw, hw]
      simp

/-- Witness for C4: the threshold branch at a node with a 3-item bundle and
the below-threshold branch (no list emitted) at a node with a 2-item bundle. -/
theorem threshold_rule_witness :
    (CONFIG_MIN_IMPORT_ITEM_LIST_LENGTH ≤ (use_list bigNode false false).length ∧
      get_imports_for_node bigNode false false [] =
        .ViewPathList [] (use_list bigNode false false) ::
          ((if bigNode.has_glob then [.ViewPathGlob []] else []) ++
            childImports bigNode.children true true [])) ∧
    ((use_list smallNode false false).length < CONFIG_MIN_IMPORT_ITEM_LIST_LENGTH ∧
      (∀ items, .ViewPathList [] items ∉ get_imports_for_node smallNode false false [])) :=
  ⟨⟨by decide, (threshold_rule bigNode false false []).1 (by decide)⟩,
    ⟨by decide, ((threshold_rule smallNode false false []).2 (by decide)).1⟩⟩

/-! ## C3: glob absorption -/

/-- C3: at a node carrying a glob, no bare (un-aliased) child item enters the
candidate bundle (the only possible un-aliased bundle item is the node's own
`self`); every aliased child item is in the bundle; no bare `Simple` for a
child of this node occurs anywhere in this node's output; the only
`ViewPathList` at this node's path is the bundle itself; and every aliased
child import still reaches the output (inside the bundle list, as a separate
`Simple`, or inside the child's own list as `self as alias`). -/
theorem glob_absorption (n : ImportNode) (sc rc : Bool) (p : List String)
    (hg : n.has_glob = true) :
    (∀ nm, (⟨nm, none⟩ : Item) ∈ use_list n sc rc → nm = "self") ∧
    (∀ k v, (k, v) ∈ n.children → ∀ r ∈ v.renames,
      (⟨k, some r⟩ : Item) ∈ use_list n sc rc) ∧
    (∀ k, .ViewPathSimple (p ++ [k]) none ∉ get_imports_for_node n sc rc p) ∧
    (∀ items, .ViewPathList p items ∈ get_imports_for_node n sc rc p →
      items = use_list n sc rc) ∧
    (∀ k v, (k, v) ∈ n.children → ∀ r ∈ v.renames,
      (∃ items, .ViewPathList p items ∈ get_imports_for_node n sc rc p ∧
        (⟨k, some r⟩ : Item) ∈ items) ∨
      .ViewPathSimple (p ++ [k]) (some r) ∈ get_imports_for_node n sc rc p ∨
      (∃ items, .ViewPathList (p ++ [k]) items ∈ get_imports_for_node n sc rc p ∧
        (⟨"self", some r⟩ : Item) ∈ items)) := by
  have habsorb : ∀ nm, (⟨nm, none⟩ : Item) ∈ use_list n sc rc → nm = "self" := by
    intro nm h
    rcases (mem_use_list n sc rc _).mp h with ⟨_, _, hEq⟩ | ⟨_, r, _, hEq⟩ | h
    · exact congrArg Item.name hEq
    · exact absurd hEq (by simp)
    · rcases (mem_childItems _ _ _).mp h with ⟨k, v, _, ⟨_, hgf, _⟩ | ⟨r, _, hEq⟩⟩
      · rw [hg] at hgf
        exact Bool.noConfusion hgf
      · exact Option.noConfusion (congrArg Item.rename hEq)
  have haliased : ∀ k v, (k, v) ∈ n.children → ∀ r ∈ v.renames,
      (⟨k, some r⟩ : Item) ∈ use_list n sc rc := by
    intro k v hm r hr
    exact (mem_use_list n sc rc _).mpr (Or.inr (Or.inr
      ((mem_childItems _ _ _).mpr ⟨k, v, hm, Or.inr ⟨r, hr, rfl⟩⟩)))
  refine ⟨habsorb, haliased, ?_, ?_, ?_⟩
  · intro k hmem
    rw [gifn_eq] at hmem
    rcases List.mem_append.mp hmem with h | h
    · have := localEmit_path h
      simp only [ViewPath.path] at this
      exact absurd (congrArg List.length this) (by simp)
    · rcases childImports_at_child h rfl with ⟨v, hv, hloc⟩
      have := (simple_none_mem_localEmit hloc).2
      rw [hg, Bool.or_true] at this
      exact Bool.noConfusion this
  · intro items hmem
    exact (list_mem_localEmit (mem_at_own_path hmem rfl)).2.2
  · intro k v hm r hr
    rcases hw : will_use_list n sc rc with _ | _
    · -- no list at this node: the child emits the alias itself
      have hlift : ∀ vp, vp ∈ localEmit v (will_use_list n sc rc || n.has_glob)
          (will_use_list n sc rc) (p ++ [k]) →
          vp ∈ get_imports_for_node n sc rc p := by
        intro vp hvp
        rw [gifn_eq]
        refine List.mem_append.mpr (Or.inr (mem_childImports_of_child hm ?_))
        rw [gifn_eq]
        exact List.mem_append.mpr (Or.inl hvp)
      rcases hwv : will_use_list v (will_use_list n sc rc || n.has_glob)
          (will_use_list n sc rc) with _ | _
      · refine Or.inr (Or.inl (hlift _ ?_))
        rw [localEmit_neg hwv]
        refine List.mem_append.mpr (Or.inl (List.mem_append.mpr (Or.inr ?_)))
        rw [hw]
        simp only [Bool.not_false, if_true]
        exact List.mem_map.mpr ⟨r, hr, rfl⟩
      · refine Or.inr (Or.inr ⟨use_list v (will_use_list n sc rc || n.has_glob)
          (will_use_list n sc rc), hlift _ ?_, ?_⟩)
        · rw [localEmit_pos hwv]
          exact List.mem_cons_self _ _
        · refine (mem_use_list _ _ _ _).mpr (Or.inr (Or.inl ⟨by rw [hw], r, hr, rfl⟩))
    · refine Or.inl ⟨use_list n sc rc, ?_, haliased k v hm r hr⟩
      rw [gifn_eq, localEmit_pos hw]
      exact List.mem_append.mpr (Or.inl (List.mem_cons_self _ _))

/-- Witness for C3 at a concrete glob node with a bare child `c` and an
aliased child `d as dd`. -/
theorem glob_absorption_witness :
    globNode.has_glob = true ∧
    (∀ nm, (⟨nm, none⟩ : Item) ∈ use_list globNode false false → nm = "self") ∧
    ((⟨"d", some "dd"⟩ : Item) ∈ use_list globNode false false) ∧
    .ViewPathSimple ["c"] none ∉ get_imports_for_node globNode false false [] := by
  have h := glob_absorption globNode false false [] (by decide)
  exact ⟨by decide, h.1,
    h.2.1 "d" (.mk true false ["dd"] [])
      (show ("d", ImportNode.mk true false ["dd"] []) ∈ globNode.children from
        List.mem_cons_of_mem _ (List.mem_cons_self _ _)) "dd" (by decide),
    h.2.2.1 "c"⟩

/-! ## Children map lemmas (lookup / replace / insert) -/

theorem sortedKeys_eq_keys : ∀ cs : List (String × ImportNode),
    sortedKeys cs = sortedStrs (cs.map Prod.fst)
  | [] => rfl
  | [_] => rfl
  | (a, v) :: (b, w) :: rest => by
    simp only [sortedKeys, List.map_cons, sortedStrs]
    rw [show sortedKeys ((b, w) :: rest) = sortedStrs (((b, w) :: rest).map Prod.fst)
      from sortedKeys_eq_keys ((b, w) :: rest)]
    simp

theorem lookupChild_none : ∀ {cs : List (String × ImportNode)} {k : String},
    lookupChild cs k = none ↔ k ∉ cs.map Prod.fst
  | [], k => by simp [lookupChild]
  | (k', v') :: tl, k => by
    simp only [lookupChild, List.map_cons, List.mem_cons]
    split_ifs with h
    · simp [h]
    · rw [lookupChild_none]
      simp [Ne.symm h]

theorem lookupChild_some : ∀ {cs : List (String × ImportNode)} {k : String}
    {v : ImportNode}, lookupChild cs k = some v → (k, v) ∈ cs
  | [], k, v => by simp [lookupChild]
  | (k', v') :: tl, k, v => by
    simp only [lookupChild]
    split_ifs with h
    · rintro h'
      injection h' with h''
      subst h; subst h''
      exact List.mem_cons_self _ _
    · intro h'
      exact List.mem_cons_of_mem _ (lookupChild_some h')

theorem mapFst_replaceChild : ∀ (cs : List (String × ImportNode)) (k : String)
    (v : ImportNode), (replaceChild cs k v).map Prod.fst = cs.map Prod.fst
  | [], _, _ => rfl
  | (k', v') :: tl, k, v => by
    simp only [replaceChild]
    split_ifs with h
    · subst h
      simp
    · simp [mapFst_replaceChild tl k v]

theorem mapFst_insertChild : ∀ (cs : List (String × ImportNode)) (k : String)
    (v : ImportNode), (insertChild cs k v).map Prod.fst = insSorted k (cs.map Prod.fst)
  | [], _, _ => rfl
  | (k', v') :: tl, k, v => by
    simp only [insertChild, insSorted, List.map_cons]
    split_ifs with h
    · simp
    · simp [mapFst_insertChild tl k v]

theorem InvChildren_mem : ∀ {cs : List (String × ImportNode)} {k : String}
    {v : ImportNode}, InvChildren cs = true → (k, v) ∈ cs → InvNode v = true
  | [], _, _, _, h => by simp at h
  | (k', v') :: tl, k, v, hinv, h => by
    have h2 : InvNode v' = true ∧ InvChildren tl = true := by
      simpa [InvChildren, Bool.and_eq_true] using hinv
    rcases List.mem_cons.mp h with hEq | h
    · injection hEq with _ h3
      rw [h3]
      exact h2.1
    · exact InvChildren_mem h2.2 h

theorem InvChildren_replace : ∀ {cs : List (String × ImportNode)} {k : String}
    {v : ImportNode}, InvChildren cs = true → InvNode v = true →
    InvChildren (replaceChild cs k v) = true
  | [], _, _, h, _ => h
  | (k', v') :: tl, k, v, hinv, hv => by
    have h2 : InvNode v' = true ∧ InvChildren tl = true := by
      simpa [InvChildren, Bool.and_eq_true] using hinv
    rw [replaceChild]
    split_ifs with h
    · simpa [InvChildren, Bool.and_eq_true] using ⟨hv, h2.2⟩
    · simpa [InvChildren, Bool.and_eq_true] using ⟨h2.1, InvChildren_replace h2.2 hv⟩

theorem InvChildren_insert : ∀ {cs : List (String × ImportNode)} {k : String}
    {v : ImportNode}, InvChildren cs = true → InvNode v = true →
    InvChildren (insertChild cs k v) = true
  | [], _, _, _, hv => by simpa [insertChild, InvChildren, Bool.and_eq_true] using hv
  | (k', v') :: tl, k, v, hinv, hv => by
    have h2 : InvNode v' = true ∧ InvChildren tl = true := by
      simpa [InvChildren, Bool.and_eq_true] using hinv
    rw [insertChild]
    split_ifs with h
    · simpa [InvChildren, Bool.and_eq_true] using ⟨hv, h2.1, h2.2⟩
    · simpa [InvChildren, Bool.and_eq_true] using ⟨h2.1, InvChildren_insert h2.2 hv⟩

theorem sortedStrs_le {l : List String} (h : sortedStrs l = true) :
    l.Pairwise (fun a b => strLt b a = false) :=
  (sortedStrs_pairwise h).imp (fun hab => strLt_asymm hab)

theorem sortedStrs_insSorted {l : List String} {k : String}
    (h : sortedStrs l = true) (hk : k ∉ l) : sortedStrs (insSorted k l) = true := by
  refine sortedStrs_of_le_nodup (pairwise_insSorted (sortedStrs_le h)) ?_
  exact (insSorted_perm k l).nodup_iff.mpr (by simp [hk, sortedStrs_nodup h])

theorem sortedKeys_replace {cs : List (String × ImportNode)} {k : String}
    {v : ImportNode} (h : sortedKeys cs = true) :
    sortedKeys (replaceChild cs k v) = true := by
  rw [sortedKeys_eq_keys, mapFst_replaceChild, ← sortedKeys_eq_keys]
  exact h

theorem sortedKeys_insert {cs : List (String × ImportNode)} {k : String}
    {v : ImportNode} (h : sortedKeys cs = true) (hk : lookupChild cs k = none) :
    sortedKeys (insertChild cs k v) = true := by
  rw [sortedKeys_eq_keys, mapFst_insertChild]
  exact sortedStrs_insSorted (sortedKeys_eq_keys cs ▸ h) (lookupChild_none.mp hk)

/-! ## The trie invariant is preserved (C9 machinery) -/

mutual
theorem Inv_combine : ∀ (a b : ImportNode), InvNode a = true → InvNode b = true →
    InvNode (a.combine_with b) = true
  | .mk s g r c, .mk s' g' r' c', ha, hb => by
    have ha' : sortedStrs r = true ∧ sortedKeys c = true ∧ InvChildren c = true := by
      simpa [InvNode, Bool.and_eq_true, and_assoc] using ha
    have hb' : sortedStrs r' = true ∧ sortedKeys c' = true ∧ InvChildren c' = true := by
      simpa [InvNode, Bool.and_eq_true, and_assoc] using hb
    rw [ImportNode.combine_with]
    have hch := Inv_combineChildren c c' ha'.2.1 ha'.2.2 hb'.2.2
    simpa [InvNode, Bool.and_eq_true, and_assoc] using
      ⟨sortedStrs_mergeRenames (sortedStrs_nodup ha'.1), hch.1, hch.2⟩

theorem Inv_combineChildren : ∀ (acc bs : List (String × ImportNode)),
    sortedKeys acc = true → InvChildren acc = true → InvChildren bs = true →
    sortedKeys (combineChildren acc bs) = true ∧
      InvChildren (combineChildren acc bs) = true
  | acc, [], h1, h2, _ => by
    rw [combineChildren]
    exact ⟨h1, h2⟩
  | acc, (k, v) :: rest, h1, h2, hb => by
    have hb' : InvNode v = true ∧ InvChildren rest = true := by
      simpa [InvChildren, Bool.and_eq_true] using hb
    rw [combineChildren]
    cases hlk : lookupChild acc k with
    | some v' =>
      have hv' : InvNode v' = true := InvChildren_mem h2 (lookupChild_some hlk)
      exact Inv_combineChildren _ rest (sortedKeys_replace h1)
        (InvChildren_replace h2 (Inv_combine v' v hv' hb'.1)) hb'.2
    | none =>
      exact Inv_combineChildren _ rest (sortedKeys_insert h1 hlk)
        (InvChildren_insert h2 hb'.1) hb'.2
end

theorem Inv_new : InvNode ImportNode.new = true := by decide

theorem Inv_self_or_rename (r : Option String) :
    InvNode (ImportNode.self_or_rename r) = true := by
  cases r <;> rfl

theorem Inv_just_glob : InvNode ImportNode.just_glob = true := by decide

theorem Inv_addNodeGo : ∀ (n : ImportNode) (path : List String) (leaf : ImportNode),
    InvNode n = true → InvNode leaf = true → InvNode (addNodeGo n path leaf) = true
  | n, [], leaf, hn, hl => by
    rw [addNodeGo]
    exact Inv_combine n leaf hn hl
  | .mk s g r c, seg :: rest, leaf, hn, hl => by
    have hn' : sortedStrs r = true ∧ sortedKeys c = true ∧ InvChildren c = true := by
      simpa [InvNode, Bool.and_eq_true, and_assoc] using hn
    rw [addNodeGo]
    cases hlk : lookupChild c seg with
    | some v =>
      have hv : InvNode v = true := InvChildren_mem hn'.2.2 (lookupChild_some hlk)
      simpa [InvNode, Bool.and_eq_true, and_assoc] using
        ⟨hn'.1, sortedKeys_replace hn'.2.1,
          InvChildren_replace hn'.2.2 (Inv_addNodeGo v rest leaf hv hl)⟩
    | none =>
      simpa [InvNode, Bool.and_eq_true, and_assoc] using
        ⟨hn'.1, sortedKeys_insert hn'.2.1 hlk,
          InvChildren_insert hn'.2.2 (Inv_addNodeGo ImportNode.new rest leaf Inv_new hl)⟩

theorem Inv_add_import (c : ImportCombiner) (vp : ViewPath)
    (h : InvNode c.root = true) : InvNode (c.add_import vp).root = true := by
  rcases c with ⟨root⟩
  cases vp with
  | ViewPathGlob p =>
    exact Inv_addNodeGo root p _ h Inv_just_glob
  | ViewPathSimple p r =>
    exact Inv_addNodeGo root p _ h (Inv_self_or_rename r)
  | ViewPathList p items =>
    simp only [ImportCombiner.add_import]
    induction items generalizing root with
    | nil => exact h
    | cons i rest ih =>
      rw [List.foldl_cons]
      split_ifs <;>
        exact ih _ (Inv_addNodeGo root _ _ h (Inv_self_or_rename i.rename))

theorem Inv_add_imports (c : ImportCombiner) (vps : List ViewPath)
    (h : InvNode c.root = true) : InvNode (c.add_imports vps).root = true := by
  induction vps generalizing c with
  | nil => exact h
  | cons vp rest ih =>
    exact ih _ (Inv_add_import c vp h)

/-! ## C9: the representation invariant -/

/-- C9: after any sequence of insertions into a fresh combiner every reachable
node satisfies the invariant (`renames` sorted and duplicate-free, children
keys sorted hence duplicate-free); on invariant-satisfying nodes
`combine_with` preserves the invariant and produces the deduplicated sorted
union of the rename sets. (`combine_with` is a total function by
construction, so it has no failure case.) -/
theorem invariants_hold :
    (∀ vps : List ViewPath,
      InvNode (ImportCombiner.new.add_imports vps).root = true) ∧
    (∀ a : ImportNode, InvNode a = true →
      sortedStrs a.renames = true ∧ a.renames.Nodup ∧
        (a.children.map Prod.fst).Nodup) ∧
    (∀ a b : ImportNode, InvNode a = true → InvNode b = true →
      InvNode (a.combine_with b) = true ∧
      sortedStrs (a.combine_with b).renames = true ∧
      (a.combine_with b).renames.Nodup ∧
      (∀ x, x ∈ (a.combine_with b).renames ↔ x ∈ a.renames ∨ x ∈ b.renames)) := by
  refine ⟨fun vps => Inv_add_imports _ vps Inv_new, ?_, ?_⟩
  · rintro ⟨s, g, r, c⟩ h
    have h' : sortedStrs r = true ∧ sortedKeys c = true ∧ InvChildren c = true := by
      simpa [InvNode, Bool.and_eq_true, and_assoc] using h
    refine ⟨h'.1, sortedStrs_nodup h'.1, ?_⟩
    have := sortedKeys_eq_keys c ▸ h'.2.1
    exact sortedStrs_nodup this
  · rintro ⟨s, g, r, c⟩ ⟨s', g', r', c'⟩ ha hb
    have ha' : sortedStrs r = true ∧ sortedKeys c = true ∧ InvChildren c = true := by
      simpa [InvNode, Bool.and_eq_true, and_assoc] using ha
    have hnd : r.Nodup := sortedStrs_nodup ha'.1
    refine ⟨Inv_combine _ _ ha hb, ?_, ?_, ?_⟩
    · exact sortedStrs_mergeRenames hnd
    · exact nodup_mergeRenames hnd
    · intro x
      exact mem_mergeRenames

/-- Witness for C9 at a concrete insertion sequence and a concrete pair of
invariant-satisfying nodes. -/
theorem invariants_hold_witness :
    InvNode (ImportCombiner.new.add_imports
      [ViewPath.ViewPathSimple ["a"] none, ViewPath.ViewPathGlob ["a", "b"]]).root
        = true ∧
    InvNode ((ImportNode.mk true false ["x"] []).combine_with
      (.mk false true ["x", "y"] [])) = true ∧
    (∀ z, z ∈ ((ImportNode.mk true false ["x"] []).combine_with
        (.mk false true ["x", "y"] [])).renames ↔
      z ∈ (ImportNode.mk true false ["x"] []).renames ∨
        z ∈ (ImportNode.mk false true ["x", "y"] []).renames) :=
  ⟨invariants_hold.1 _,
    (invariants_hold.2.2 _ _ (by decide) (by decide)).1,
    (invariants_hold.2.2 _ _ (by decide) (by decide)).2.2.2⟩

/-! ## Children update commutation lemmas (C2 machinery) -/

theorem addNodeGo_cons (s g : Bool) (r : List String)
    (c : List (String × ImportNode)) (seg : String) (rest : List String)
    (leaf : ImportNode) :
    addNodeGo (.mk s g r c) (seg :: rest) leaf =
      .mk s g r (childUpdate c seg rest leaf) := by
  rw [addNodeGo, childUpdate]

theorem combine_leaf (a b : ImportNode) (hb : b.children = []) :
    a.combine_with b =
      .mk (a.has_self || b.has_self) (a.has_glob || b.has_glob)
        (mergeRenames a.renames b.renames) a.children := by
  rcases a with ⟨s, g, r, c⟩
  rcases b with ⟨s', g', r', c'⟩
  simp only [ImportNode.children] at hb
  subst hb
  rw [ImportNode.combine_with, combineChildren]
  rfl

theorem mergeRenames_swap {tr r1 r2 : List String} (h : tr.Nodup) :
    mergeRenames (mergeRenames tr r1) r2 = mergeRenames (mergeRenames tr r2) r1 := by
  apply sortedStrs_eq_of_mem
  · exact sortedStrs_mergeRenames (nodup_mergeRenames h)
  · exact sortedStrs_mergeRenames (nodup_mergeRenames h)
  · intro x
    simp only [mem_mergeRenames]
    tauto

theorem lookupChild_replace_self : ∀ {cs : List (String × ImportNode)} {k : String}
    {v w : ImportNode}, lookupChild cs k = some v →
    lookupChild (replaceChild cs k w) k = some w
  | [], _, _, _, h => by simp [lookupChild] at h
  | (k', v') :: tl, k, v, w, h => by
    rw [replaceChild]
    split_ifs with hEq
    · rw [lookupChild, if_pos hEq]
    · rw [lookupChild, if_neg hEq]
      rw [lookupChild, if_neg hEq] at h
      exact lookupChild_replace_self h

theorem lookupChild_insert_self : ∀ {cs : List (String × ImportNode)} {k : String}
    {w : ImportNode}, lookupChild cs k = none →
    lookupChild (insertChild cs k w) k = some w
  | [], k, w, _ => by simp [insertChild, lookupChild]
  | (k', v') :: tl, k, w, h => by
    rw [lookupChild] at h
    split_ifs at h with hEq
    rw [insertChild]
    split_ifs with hlt
    · rw [lookupChild, if_pos rfl]
    · rw [lookupChild, if_neg hEq]
      exact lookupChild_insert_self h

theorem lookupChild_replace_other : ∀ {cs : List (String × ImportNode)}
    {k k2 : String} {w : ImportNode}, k2 ≠ k →
    lookupChild (replaceChild cs k w) k2 = lookupChild cs k2
  | [], _, _, _, _ => rfl
  | (k', v') :: tl, k, k2, w, hne => by
    rw [replaceChild]
    split_ifs with hEq
    · subst hEq
      rw [lookupChild, lookupChild, if_neg (Ne.symm hne), if_neg (Ne.symm hne)]
    · rw [lookupChild, lookupChild]
      split_ifs with h2
      · rfl
      · exact lookupChild_replace_other hne

theorem lookupChild_insert_other : ∀ {cs : List (String × ImportNode)}
    {k k2 : String} {w : ImportNode}, k2 ≠ k →
    lookupChild (insertChild cs k w) k2 = lookupChild cs k2
  | [], k, k2, w, hne => by
    have h' : k ≠ k2 := Ne.symm hne
    simp [insertChild, lookupChild, h']
  | (k', v') :: tl, k, k2, w, hne => by
    rw [insertChild]
    split_ifs with hlt
    · rw [lookupChild, if_neg (Ne.symm hne)]
    · rw [lookupChild, lookupChild]
      split_ifs with h2
      · rfl
      · exact lookupChild_insert_other hne

theorem replaceChild_replace_self : ∀ (cs : List (String × ImportNode)) (k : String)
    (v w : ImportNode), replaceChild (replaceChild cs k v) k w = replaceChild cs k w
  | [], _, _, _ => rfl
  | (k', v') :: tl, k, v, w => by
    rw [replaceChild]
    split_ifs with hEq
    · rw [replaceChild, if_pos hEq, replaceChild, if_pos hEq]
    · rw [replaceChild, if_neg hEq, replaceChild, if_neg hEq,
        replaceChild_replace_self tl k v w]

theorem replaceChild_insert_self : ∀ (cs : List (String × ImportNode)) (k : String)
    (v w : ImportNode), lookupChild cs k = none →
    replaceChild (insertChild cs k v) k w = insertChild cs k w
  | [], k, v, w, _ => by
    rw [insertChild, insertChild, replaceChild, if_pos rfl]
  | (k', v') :: tl, k, v, w, h => by
    rw [lookupChild] at h
    split_ifs at h with hEq
    rw [insertChild, insertChild]
    split_ifs with hlt
    · rw [replaceChild, if_pos rfl]
    · rw [replaceChild, if_neg hEq, replaceChild_insert_self tl k v w h]

theorem replaceChild_comm : ∀ (cs : List (String × ImportNode)) {k1 k2 : String}
    (v1 v2 : ImportNode), k1 ≠ k2 →
    replaceChild (replaceChild cs k1 v1) k2 v2 =
      replaceChild (replaceChild cs k2 v2) k1 v1
  | [], _, _, _, _, _ => rfl
  | (k', v') :: tl, k1, k2, v1, v2, hne => by
    by_cases h1 : k' = k1 <;> by_cases h2 : k' = k2
    · exact absurd (h1.symm.trans h2) hne
    all_goals simp [replaceChild, h1, h2, hne, Ne.symm hne, replaceChild_comm tl v1 v2 hne]

theorem insertChild_comm : ∀ (cs : List (String × ImportNode)) {k1 k2 : String}
    (v1 v2 : ImportNode), k1 ≠ k2 →
    insertChild (insertChild cs k1 v1) k2 v2 =
      insertChild (insertChild cs k2 v2) k1 v1
  | [], k1, k2, v1, v2, hne => by
    rcases h12 : strLt k1 k2 with _ | _
    · have h21 : strLt k2 k1 = true := by
        rcases strLt_total k1 k2 with h | h | h
        · rw [h] at h12
          exact Bool.noConfusion h12
        · exact h
        · exact absurd h hne
      simp [insertChild, h12, h21]
    · have h21 : strLt k2 k1 = false := strLt_asymm h12
      simp [insertChild, h12, h21]
  | (k', v') :: tl, k1, k2, v1, v2, hne => by
    rcases h1 : strLt k1 k' with _ | _ <;> rcases h2 : strLt k2 k' with _ | _
    · simp [insertChild, h1, h2, insertChild_comm tl v1 v2 hne]
    · have h12 : strLt k1 k2 = false := by
        rcases h12 : strLt k1 k2 with _ | _
        · rfl
        · rw [strLt_trans h12 h2] at h1
          exact Bool.noConfusion h1
      simp [insertChild, h1, h2, h12]
    · have h21 : strLt k2 k1 = false := by
        rcases h21 : strLt k2 k1 with _ | _
        · rfl
        · rw [strLt_trans h21 h1] at h2
          exact Bool.noConfusion h2
      simp [insertChild, h1, h2, h21]
    · rcases h21 : strLt k2 k1 with _ | _
      · have h12 : strLt k1 k2 = true := by
          rcases strLt_total k1 k2 with h | h | h
          · exact h
          · rw [h] at h21
            exact Bool.noConfusion h21
          · exact absurd h hne
        simp [insertChild, h1, h2, h21, h12]
      · have h12 : strLt k1 k2 = false := strLt_asymm h21
        simp [insertChild, h1, h2, h21, h12]

theorem replace_insert_comm : ∀ (cs : List (String × ImportNode)) {k1 k2 : String}
    (v1 v2 : ImportNode), k1 ≠ k2 →
    replaceChild (insertChild cs k1 v1) k2 v2 =
      insertChild (replaceChild cs k2 v2) k1 v1
  | [], k1, k2, v1, v2, hne => by
    simp [insertChild, replaceChild, hne, Ne.symm hne]
  | (k', v') :: tl, k1, k2, v1, v2, hne => by
    rcases h1 : strLt k1 k' with _ | _ <;> by_cases h2 : k' = k2
    · subst h2
      simp [insertChild, replaceChild, h1, hne, Ne.symm hne,
        replace_insert_comm tl v1 v2 hne]
    · simp [insertChild, replaceChild, h1, h2, hne, Ne.symm hne,
        replace_insert_comm tl v1 v2 hne]
    · subst h2
      simp [insertChild, replaceChild, h1, hne, Ne.symm hne]
    · simp [insertChild, replaceChild, h1, h2, hne, Ne.symm hne]

theorem addNodeGo_nil (n : ImportNode) (leaf : ImportNode) :
    addNodeGo n [] leaf = n.combine_with leaf := by
  rw [addNodeGo]

theorem childUpdate_some {c : List (String × ImportNode)} {seg : String}
    {v : ImportNode} (hlk : lookupChild c seg = some v) (rest : List String)
    (leaf : ImportNode) :
    childUpdate c seg rest leaf = replaceChild c seg (addNodeGo v rest leaf) := by
  rw [childUpdate, hlk]

theorem childUpdate_none {c : List (String × ImportNode)} {seg : String}
    (hlk : lookupChild c seg = none) (rest : List String) (leaf : ImportNode) :
    childUpdate c seg rest leaf =
      insertChild c seg (addNodeGo ImportNode.new rest leaf) := by
  rw [childUpdate, hlk]

theorem addNodeGo_comm : ∀ (p1 : List String) (t : ImportNode) (p2 : List String)
    (l1 l2 : ImportNode), InvNode t = true → l1.children = [] → l2.children = [] →
    addNodeGo (addNodeGo t p1 l1) p2 l2 = addNodeGo (addNodeGo t p2 l2) p1 l1
  | [], ⟨ts, tg, tr, tc⟩, [], ⟨s1, g1, rn1, c1⟩, ⟨s2, g2, rn2, c2⟩, ht, h1, h2 => by
    have h' : sortedStrs tr = true ∧ sortedKeys tc = true ∧ InvChildren tc = true := by
      simpa [InvNode, Bool.and_eq_true, and_assoc] using ht
    have hnd : tr.Nodup := sortedStrs_nodup h'.1
    simp only [ImportNode.children] at h1 h2
    subst h1
    subst h2
    rw [addNodeGo_nil, addNodeGo_nil, addNodeGo_nil, addNodeGo_nil,
      combine_leaf _ (ImportNode.mk s1 g1 rn1 []) rfl,
      combine_leaf _ (ImportNode.mk s2 g2 rn2 []) rfl,
      combine_leaf _ (ImportNode.mk s2 g2 rn2 []) rfl,
      combine_leaf _ (ImportNode.mk s1 g1 rn1 []) rfl]
    simp only [ImportNode.has_self, ImportNode.has_glob, ImportNode.renames,
      ImportNode.children]
    congr 1
    all_goals
      first
        | exact mergeRenames_swap hnd
        | simp [Bool.or_assoc, Bool.or_comm, Bool.or_left_comm]
  | [], ⟨ts, tg, tr, tc⟩, s2 :: r2, l1, l2, ht, h1, h2 => by
    rw [addNodeGo_nil, combine_leaf _ l1 h1, addNodeGo_cons, addNodeGo_cons,
      addNodeGo_nil, combine_leaf _ l1 h1]
    simp only [ImportNode.has_self, ImportNode.has_glob, ImportNode.renames,
      ImportNode.children]
  | s1 :: r1, t, [], l1, l2, ht, h1, h2 =>
    (addNodeGo_comm [] t (s1 :: r1) l2 l1 ht h2 h1).symm
  | s1 :: r1, ⟨ts, tg, tr, tc⟩, s2 :: r2, l1, l2, ht, h1, h2 => by
    have h' : sortedStrs tr = true ∧ sortedKeys tc = true ∧ InvChildren tc = true := by
      simpa [InvNode, Bool.and_eq_true, and_assoc] using ht
    rw [addNodeGo_cons, addNodeGo_cons, addNodeGo_cons, addNodeGo_cons]
    congr 1
    by_cases hss : s1 = s2
    · subst hss
      cases hlk : lookupChild tc s1 with
      | some v =>
        have hv : InvNode v = true := InvChildren_mem h'.2.2 (lookupChild_some hlk)
        rw [childUpdate_some hlk r1 l1,
          childUpdate_some (lookupChild_replace_self hlk) r2 l2,
          childUpdate_some hlk r2 l2,
          childUpdate_some (lookupChild_replace_self hlk) r1 l1,
          replaceChild_replace_self, replaceChild_replace_self,
          addNodeGo_comm r1 v r2 l1 l2 hv h1 h2]
      | none =>
        rw [childUpdate_none hlk r1 l1,
          childUpdate_some (lookupChild_insert_self hlk) r2 l2,
          childUpdate_none hlk r2 l2,
          childUpdate_some (lookupChild_insert_self hlk) r1 l1,
          replaceChild_insert_self _ _ _ _ hlk, replaceChild_insert_self _ _ _ _ hlk,
          addNodeGo_comm r1 ImportNode.new r2 l1 l2 Inv_new h1 h2]
    · have hss' : s2 ≠ s1 := Ne.symm hss
      cases hlk1 : lookupChild tc s1 with
      | some v1' =>
        have hlk1r : ∀ w, lookupChild (replaceChild tc s2 w) s1 = some v1' := by
          intro w
          rw [lookupChild_replace_other hss]
          exact hlk1
        have hlk1i : ∀ w, lookupChild (insertChild tc s2 w) s1 = some v1' := by
          intro w
          rw [lookupChild_insert_other hss]
          exact hlk1
        cases hlk2 : lookupChild tc s2 with
        | some v2' =>
          have hlk2r : ∀ w, lookupChild (replaceChild tc s1 w) s2 = some v2' := by
            intro w
            rw [lookupChild_replace_other hss']
            exact hlk2
          rw [childUpdate_some hlk1 r1 l1, childUpdate_some (hlk2r _) r2 l2,
            childUpdate_some hlk2 r2 l2, childUpdate_some (hlk1r _) r1 l1,
            replaceChild_comm tc _ _ hss]
        | none =>
          have hlk2r : ∀ w, lookupChild (replaceChild tc s1 w) s2 = none := by
            intro w
            rw [lookupChild_replace_other hss']
            exact hlk2
          rw [childUpdate_some hlk1 r1 l1, childUpdate_none (hlk2r _) r2 l2,
            childUpdate_none hlk2 r2 l2, childUpdate_some (hlk1i _) r1 l1]
          exact (replace_insert_comm tc _ _ hss').symm
      | none =>
        have hlk1r : ∀ w, lookupChild (replaceChild tc s2 w) s1 = none := by
          intro w
          rw [lookupChild_replace_other hss]
          exact hlk1
        have hlk1i : ∀ w, lookupChild (insertChild tc s2 w) s1 = none := by
          intro w
          rw [lookupChild_insert_other hss]
          exact hlk1
        cases hlk2 : lookupChild tc s2 with
        | some v2' =>
          have hlk2i : ∀ w, lookupChild (insertChild tc s1 w) s2 = some v2' := by
            intro w
            rw [lookupChild_insert_other hss']
            exact hlk2
          rw [childUpdate_none hlk1 r1 l1, childUpdate_some (hlk2i _) r2 l2,
            childUpdate_some hlk2 r2 l2, childUpdate_none (hlk1r _) r1 l1]
          exact replace_insert_comm tc _ _ hss
        | none =>
          have hlk2i : ∀ w, lookupChild (insertChild tc s1 w) s2 = none := by
            intro w
            rw [lookupChild_insert_other hss']
            exact hlk2
          rw [childUpdate_none hlk1 r1 l1, childUpdate_none (hlk2i _) r2 l2,
            childUpdate_none hlk2 r2 l2, childUpdate_none (hlk1i _) r1 l1,
            insertChild_comm tc _ _ hss]
termination_by p1 t p2 l1 l2 ht h1 h2 => p1.length

/-! ## Decomposition and fold commutation (C2) -/

theorem combinerExt {a b : ImportCombiner} (h : a.root = b.root) : a = b := by
  cases a
  cases b
  cases h
  rfl

theorem add_import_decomp : ∀ (c : ImportCombiner) (vp : ViewPath),
    (c.add_import vp).root = (decomp vp).foldl addLeafStep c.root := by
  intro c vp
  cases vp with
  | ViewPathGlob p => rfl
  | ViewPathSimple p r => rfl
  | ViewPathList p items =>
    rcases c with ⟨root⟩
    simp only [ImportCombiner.add_import, decomp, List.foldl_map]
    induction items generalizing root with
    | nil => rfl
    | cons i rest ih =>
      rw [List.foldl_cons, List.foldl_cons]
      by_cases hc : i.name = "self" <;>
        simp only [hc, if_true, if_false, reduceIte] <;>
        exact ih _

theorem decomp_leaf (vp : ViewPath) :
    ∀ pl ∈ decomp vp, pl.2.children = [] ∧ InvNode pl.2 = true := by
  intro pl hm
  cases vp with
  | ViewPathGlob p =>
    rcases List.mem_singleton.mp hm with rfl
    exact ⟨rfl, Inv_just_glob⟩
  | ViewPathSimple p r =>
    rcases List.mem_singleton.mp hm with rfl
    refine ⟨?_, Inv_self_or_rename r⟩
    cases r <;> rfl
  | ViewPathList p items =>
    rcases List.mem_map.mp hm with ⟨i, _, rfl⟩
    by_cases hc : i.name = "self" <;> simp only [hc, if_true, if_false, reduceIte] <;>
      exact ⟨by cases i.rename <;> rfl, Inv_self_or_rename i.rename⟩

theorem Inv_foldOps : ∀ (ops : List (List String × ImportNode)) (t : ImportNode),
    InvNode t = true → (∀ pl ∈ ops, InvNode pl.2 = true) →
    InvNode (ops.foldl addLeafStep t) = true
  | [], t, ht, _ => ht
  | pl :: rest, t, ht, hops => by
    rw [List.foldl_cons]
    exact Inv_foldOps rest _ (Inv_addNodeGo _ _ _ ht (hops pl (List.mem_cons_self _ _)))
      (fun q hq => hops q (List.mem_cons_of_mem _ hq))

theorem fold_addNodeGo_comm : ∀ (ops : List (List String × ImportNode))
    (t : ImportNode) (p : List String) (l : ImportNode), InvNode t = true →
    (∀ pl ∈ ops, pl.2.children = [] ∧ InvNode pl.2 = true) →
    l.children = [] →
    ops.foldl addLeafStep (addNodeGo t p l) = addNodeGo (ops.foldl addLeafStep t) p l
  | [], _, _, _, _, _, _ => rfl
  | pl :: rest, t, p, l, ht, hops, hl => by
    rw [List.foldl_cons, List.foldl_cons]
    have h1 := hops pl (List.mem_cons_self _ _)
    have e1 : addLeafStep (addNodeGo t p l) pl = addNodeGo (addLeafStep t pl) p l :=
      addNodeGo_comm p t pl.1 l pl.2 ht hl h1.1
    rw [e1]
    exact fold_addNodeGo_comm rest _ p l (Inv_addNodeGo _ _ _ ht h1.2)
      (fun q hq => hops q (List.mem_cons_of_mem _ hq)) hl

theorem foldOps_swap : ∀ (ops1 ops2 : List (List String × ImportNode))
    (t : ImportNode), InvNode t = true →
    (∀ pl ∈ ops1, pl.2.children = [] ∧ InvNode pl.2 = true) →
    (∀ pl ∈ ops2, pl.2.children = [] ∧ InvNode pl.2 = true) →
    ops2.foldl addLeafStep (ops1.foldl addLeafStep t) =
      ops1.foldl addLeafStep (ops2.foldl addLeafStep t)
  | [], ops2, t, _, _, _ => rfl
  | pl :: rest, ops2, t, ht, h1, h2 => by
    rw [List.foldl_cons, List.foldl_cons]
    have hpl := h1 pl (List.mem_cons_self _ _)
    rw [foldOps_swap rest ops2 (addLeafStep t pl)
      (Inv_addNodeGo t pl.1 pl.2 ht hpl.2)
      (fun q hq => h1 q (List.mem_cons_of_mem _ hq)) h2]
    have e2 : ops2.foldl addLeafStep (addLeafStep t pl) =
        addLeafStep (ops2.foldl addLeafStep t) pl :=
      fold_addNodeGo_comm ops2 t pl.1 pl.2 ht h2 hpl.1
    rw [e2]

theorem add_import_comm (c : ImportCombiner) (v w : ViewPath)
    (h : InvNode c.root = true) :
    (c.add_import v).add_import w = (c.add_import w).add_import v := by
  apply combinerExt
  rw [add_import_decomp, add_import_decomp, add_import_decomp, add_import_decomp]
  exact foldOps_swap (decomp v) (decomp w) c.root h (decomp_leaf v) (decomp_leaf w)

theorem add_imports_perm : ∀ {l l' : List ViewPath}, l.Perm l' →
    ∀ c : ImportCombiner, InvNode c.root = true →
    c.add_imports l = c.add_imports l' := by
  intro l l' h
  induction h with
  | nil => exact fun c _ => rfl
  | cons x h ih =>
    intro c hc
    simp only [ImportCombiner.add_imports, List.foldl_cons]
    exact ih (c.add_import x) (Inv_add_import c x hc)
  | swap x y l =>
    intro c hc
    simp only [ImportCombiner.add_imports, List.foldl_cons]
    rw [add_import_comm c y x hc]
  | trans h1 h2 ih1 ih2 =>
    intro c hc
    exact (ih1 c hc).trans (ih2 c hc)

/-! ## C2: order independence -/

/-- C2: `combine_imports` is order-independent — for every permutation of the
input list the built trie is equal and the output sequence is identical.
(The underlying reason, proved in `addNodeGo_comm`/`add_import_comm`, is that
merging insertions commutes: flags are ORed, rename sets are dedup-sorted
unions, and children merge recursively.) -/
theorem order_independence (vps vps' : List ViewPath) (h : vps.Perm vps') :
    (ImportCombiner.new.add_imports vps).root =
      (ImportCombiner.new.add_imports vps').root ∧
    combine_imports vps = combine_imports vps' := by
  have he := add_imports_perm h ImportCombiner.new Inv_new
  exact ⟨by rw [he], by rw [combine_imports, combine_imports, he]⟩

/-- Witness for C2 at a concrete pair of inputs related by a swap. -/
theorem order_independence_witness :
    List.Perm
      [ViewPath.ViewPathGlob ["b"], ViewPath.ViewPathSimple ["a"] none]
      [ViewPath.ViewPathSimple ["a"] none, ViewPath.ViewPathGlob ["b"]] ∧
    combine_imports [ViewPath.ViewPathGlob ["b"], ViewPath.ViewPathSimple ["a"] none] =
      combine_imports [ViewPath.ViewPathSimple ["a"] none, ViewPath.ViewPathGlob ["b"]] :=
  have hp : List.Perm
      [ViewPath.ViewPathGlob ["b"], ViewPath.ViewPathSimple ["a"] none]
      [ViewPath.ViewPathSimple ["a"] none, ViewPath.ViewPathGlob ["b"]] :=
    List.Perm.swap _ _ _
  ⟨hp, (order_independence _ _ hp).2⟩

/-! ## Denotation lemmas (C1 machinery) -/

theorem mem_declsPairs {l : List ViewPath} {x : List String × String} :
    x ∈ declsPairs l ↔ ∃ vp ∈ l, x ∈ vpPairs vp := Iff.rfl

theorem declsPairs_append {l1 l2 : List ViewPath} {x : List String × String} :
    x ∈ declsPairs (l1 ++ l2) ↔ x ∈ declsPairs l1 ∨ x ∈ declsPairs l2 := by
  simp only [mem_declsPairs, List.mem_append]
  constructor
  · rintro ⟨vp, h1 | h1, h2⟩
    · exact Or.inl ⟨vp, h1, h2⟩
    · exact Or.inr ⟨vp, h1, h2⟩
  · rintro (⟨vp, h1, h2⟩ | ⟨vp, h1, h2⟩)
    · exact ⟨vp, Or.inl h1, h2⟩
    · exact ⟨vp, Or.inr h1, h2⟩

theorem declsPairs_of_mem {l : List ViewPath} {vp : ViewPath}
    {x : List String × String} (h1 : vp ∈ l) (h2 : x ∈ vpPairs vp) :
    x ∈ declsPairs l := ⟨vp, h1, h2⟩

theorem lastName_append (p : List String) (k : String) :
    lastName (p ++ [k]) = k := by
  induction p with
  | nil => rfl
  | cons a tl ih =>
    rw [lastName] at ih ⊢
    rw [List.cons_append, List.getLastD_cons]
    cases tl with
    | nil => rfl
    | cons b tl2 => simpa using ih

theorem mem_nodePairs {hs hg : Bool} {rn : List String}
    {c : List (String × ImportNode)} {p : List String} {x : List String × String} :
    x ∈ nodePairs (.mk hs hg rn c) p ↔
      (hs = true ∧ x = (p, lastName p)) ∨
      (∃ r ∈ rn, x = (p, r)) ∨
      (hg = true ∧ x ∈ globFam p) ∨
      x ∈ childrenPairs c p := by
  rw [nodePairs]
  simp only [Set.mem_union]
  constructor
  · rintro (((h | h) | h) | h)
    · split_ifs at h with h1
      · exact Or.inl ⟨h1, h⟩
      · simp at h
    · exact Or.inr (Or.inl (by simpa using h))
    · split_ifs at h with h1
      · exact Or.inr (Or.inr (Or.inl ⟨h1, h⟩))
      · simp at h
    · exact Or.inr (Or.inr (Or.inr h))
  · rintro (⟨h1, h⟩ | h | ⟨h1, h⟩ | h)
    · refine Or.inl (Or.inl (Or.inl ?_))
      rw [if_pos h1]
      exact h
    · exact Or.inl (Or.inl (Or.inr (by simpa using h)))
    · refine Or.inl (Or.inr ?_)
      rw [if_pos h1]
      exact h
    · exact Or.inr h

theorem mem_childrenPairs : ∀ {cs : List (String × ImportNode)} {p : List String}
    {x : List String × String},
    x ∈ childrenPairs cs p ↔ ∃ k v, (k, v) ∈ cs ∧ x ∈ nodePairs v (p ++ [k])
  | [], p, x => by
    rw [childrenPairs]
    simp
  | (k0, v0) :: rest, p, x => by
    rw [childrenPairs]
    simp only [Set.mem_union]
    constructor
    · rintro (h | h)
      · exact ⟨k0, v0, List.mem_cons_self _ _, h⟩
      · rcases mem_childrenPairs.mp h with ⟨k, v, hm, hx⟩
        exact ⟨k, v, List.mem_cons_of_mem _ hm, hx⟩
    · rintro ⟨k, v, hm, hx⟩
      rcases List.mem_cons.mp hm with hEq | hm
      · injection hEq with h1 h2
        subst h1; subst h2
        exact Or.inl hx
      · exact Or.inr (mem_childrenPairs.mpr ⟨k, v, hm, hx⟩)

theorem nodePairs_new {p : List String} {x : List String × String} :
    x ∈ nodePairs ImportNode.new p ↔ False := by
  rw [ImportNode.new, mem_nodePairs]
  simp [childrenPairs]

theorem nodePairs_self_or_rename {r : Option String} {p : List String}
    {x : List String × String} :
    x ∈ nodePairs (ImportNode.self_or_rename r) p ↔ x = (p, r.getD (lastName p)) := by
  cases r with
  | none =>
    rw [ImportNode.self_or_rename, mem_nodePairs]
    simp [childrenPairs]
  | some a =>
    rw [ImportNode.self_or_rename, mem_nodePairs]
    simp [childrenPairs, Option.toList]

theorem nodePairs_just_glob {p : List String} {x : List String × String} :
    x ∈ nodePairs ImportNode.just_glob p ↔ x ∈ globFam p := by
  rw [ImportNode.just_glob, mem_nodePairs]
  simp [childrenPairs]

theorem insertChild_pairs : ∀ {cs : List (String × ImportNode)} {k : String}
    {v : ImportNode} {p : List String} {x : List String × String},
    x ∈ childrenPairs (insertChild cs k v) p ↔
      x ∈ childrenPairs cs p ∨ x ∈ nodePairs v (p ++ [k])
  | [], k, v, p, x => by
    rw [insertChild, childrenPairs, childrenPairs, childrenPairs]
    simp [Set.mem_union, or_comm]
  | (k0, v0) :: tl, k, v, p, x => by
    rw [insertChild]
    split_ifs with hlt
    · rw [childrenPairs, childrenPairs]
      simp only [Set.mem_union]
      tauto
    · rw [childrenPairs, childrenPairs]
      simp only [Set.mem_union, @insertChild_pairs tl k v p x]
      tauto

mutual
theorem combine_pairs : ∀ (a b : ImportNode) (p : List String)
    (x : List String × String),
    x ∈ nodePairs (a.combine_with b) p ↔ x ∈ nodePairs a p ∨ x ∈ nodePairs b p
  | .mk s g r c, .mk s' g' r' c', p, x => by
    rw [ImportNode.combine_with]
    rw [mem_nodePairs, mem_nodePairs, mem_nodePairs]
    rw [combineChildren_pairs c c' p x]
    simp only [Bool.or_eq_true, mem_mergeRenames]
    constructor
    · rintro (⟨h1 | h1, h2⟩ | ⟨rr, hr1 | hr1, hr2⟩ | ⟨h1 | h1, h2⟩ | h | h)
      · exact Or.inl (Or.inl ⟨h1, h2⟩)
      · exact Or.inr (Or.inl ⟨h1, h2⟩)
      · exact Or.inl (Or.inr (Or.inl ⟨rr, hr1, hr2⟩))
      · exact Or.inr (Or.inr (Or.inl ⟨rr, hr1, hr2⟩))
      · exact Or.inl (Or.inr (Or.inr (Or.inl ⟨h1, h2⟩)))
      · exact Or.inr (Or.inr (Or.inr (Or.inl ⟨h1, h2⟩)))
      · exact Or.inl (Or.inr (Or.inr (Or.inr h)))
      · exact Or.inr (Or.inr (Or.inr (Or.inr h)))
    · rintro ((⟨h1, h2⟩ | ⟨rr, hr1, hr2⟩ | ⟨h1, h2⟩ | h) |
        (⟨h1, h2⟩ | ⟨rr, hr1, hr2⟩ | ⟨h1, h2⟩ | h))
      · exact Or.inl ⟨Or.inl h1, h2⟩
      · exact Or.inr (Or.inl ⟨rr, Or.inl hr1, hr2⟩)
      · exact Or.inr (Or.inr (Or.inl ⟨Or.inl h1, h2⟩))
      · exact Or.inr (Or.inr (Or.inr (Or.inl h)))
      · exact Or.inl ⟨Or.inr h1, h2⟩
      · exact Or.inr (Or.inl ⟨rr, Or.inr hr1, hr2⟩)
      · exact Or.inr (Or.inr (Or.inl ⟨Or.inr h1, h2⟩))
      · exact Or.inr (Or.inr (Or.inr (Or.inr h)))

termination_by a b p x => (sizeOf b, 0)

theorem combineChildren_pairs : ∀ (acc bs : List (String × ImportNode))
    (p : List String) (x : List String × String),
    x ∈ childrenPairs (combineChildren acc bs) p ↔
      x ∈ childrenPairs acc p ∨ x ∈ childrenPairs bs p
  | acc, [], p, x => by
    rw [combineChildren, childrenPairs]
    simp
  | acc, (k, v) :: rest, p, x => by
    rw [combineChildren]
    cases hlk : lookupChild acc k with
    | some v' =>
      rw [combineChildren_pairs _ rest p x, replaceCombine_pairs acc k v' v p x hlk,
        childrenPairs]
      simp only [Set.mem_union]
      tauto
    | none =>
      rw [combineChildren_pairs _ rest p x, insertChild_pairs, childrenPairs]
      simp only [Set.mem_union]
      tauto

termination_by acc bs p x => (sizeOf bs, 0)

theorem replaceCombine_pairs : ∀ (cs : List (String × ImportNode)) (k : String)
    (v' v : ImportNode) (p : List String) (x : List String × String),
    lookupChild cs k = some v' →
    (x ∈ childrenPairs (replaceChild cs k (v'.combine_with v)) p ↔
      x ∈ childrenPairs cs p ∨ x ∈ nodePairs v (p ++ [k]))
  | [], k, v', v, p, x, hlk => by simp [lookupChild] at hlk
  | (k0, v0) :: tl, k, v', v, p, x, hlk => by
    rw [lookupChild] at hlk
    split_ifs at hlk with hEq
    · injection hlk with hv0
      subst hEq
      subst hv0
      rw [replaceChild, if_pos rfl, childrenPairs, childrenPairs]
      simp only [Set.mem_union, combine_pairs v0 v (p ++ [k0]) x]
      tauto
    · rw [replaceChild, if_neg hEq, childrenPairs, childrenPairs]
      simp only [Set.mem_union, replaceCombine_pairs tl k v' v p x hlk]
      tauto
termination_by cs k v' v p x hlk => (sizeOf v, 1 + sizeOf cs)
end

mutual
theorem addNodeGo_pairs : ∀ (n : ImportNode) (path : List String)
    (leaf : ImportNode) (p : List String) (x : List String × String),
    x ∈ nodePairs (addNodeGo n path leaf) p ↔
      x ∈ nodePairs n p ∨ x ∈ nodePairs leaf (p ++ path)
  | n, [], leaf, p, x => by
    rw [addNodeGo_nil, combine_pairs, List.append_nil]
  | .mk s g r c, seg :: rest, leaf, p, x => by
    rw [addNodeGo_cons]
    cases hlk : lookupChild c seg with
    | some v =>
      rw [childUpdate_some hlk, mem_nodePairs, mem_nodePairs]
      simp only [replaceAdd_pairs c seg v rest leaf p x hlk]
      rw [List.append_assoc]
      simp only [List.singleton_append, or_assoc, or_comm, or_left_comm]
    | none =>
      rw [childUpdate_none hlk, mem_nodePairs, mem_nodePairs]
      simp only [@insertChild_pairs c seg (addNodeGo ImportNode.new rest leaf) p x,
        addNodeGo_pairs ImportNode.new rest leaf (p ++ [seg]) x,
        nodePairs_new]
      rw [List.append_assoc]
      simp only [List.singleton_append, false_or, or_assoc, or_comm, or_left_comm]
termination_by n path leaf p x => (path.length, 0)

theorem replaceAdd_pairs : ∀ (cs : List (String × ImportNode)) (seg : String)
    (v : ImportNode) (rest : List String) (leaf : ImportNode) (p : List String)
    (x : List String × String), lookupChild cs seg = some v →
    (x ∈ childrenPairs (replaceChild cs seg (addNodeGo v rest leaf)) p ↔
      x ∈ childrenPairs cs p ∨ x ∈ nodePairs leaf ((p ++ [seg]) ++ rest))
  | [], seg, v, rest, leaf, p, x, hlk => by simp [lookupChild] at hlk
  | (k0, v0) :: tl, seg, v, rest, leaf, p, x, hlk => by
    rw [lookupChild] at hlk
    split_ifs at hlk with hEq
    · injection hlk with hv0
      subst hEq
      subst hv0
      rw [replaceChild, if_pos rfl, childrenPairs, childrenPairs]
      simp only [Set.mem_union, addNodeGo_pairs v0 rest leaf (p ++ [k0]) x]
      simp only [or_assoc, or_comm, or_left_comm]
    · rw [replaceChild, if_neg hEq, childrenPairs, childrenPairs]
      simp only [Set.mem_union, replaceAdd_pairs tl seg v rest leaf p x hlk]
      simp only [or_assoc, or_comm, or_left_comm]
termination_by cs seg v rest leaf p x hlk => (rest.length, 1 + sizeOf cs)
end

theorem foldOps_pairs : ∀ (ops : List (List String × ImportNode))
    (t : ImportNode) (x : List String × String),
    x ∈ nodePairs (ops.foldl addLeafStep t) [] ↔
      x ∈ nodePairs t [] ∨ ∃ pl ∈ ops, x ∈ nodePairs pl.2 pl.1
  | [], t, x => by simp
  | pl :: rest, t, x => by
    rw [List.foldl_cons]
    rw [foldOps_pairs rest (addLeafStep t pl) x]
    have e1 : x ∈ nodePairs (addLeafStep t pl) [] ↔
        x ∈ nodePairs t [] ∨ x ∈ nodePairs pl.2 pl.1 := by
      have := addNodeGo_pairs t pl.1 pl.2 [] x
      rw [List.nil_append] at this
      exact this
    rw [e1]
    simp only [List.exists_mem_cons_iff]
    tauto

theorem decomp_vpPairs (vp : ViewPath) (x : List String × String) :
    x ∈ vpPairs vp ↔ ∃ pl ∈ decomp vp, x ∈ nodePairs pl.2 pl.1 := by
  cases vp with
  | ViewPathGlob p =>
    rw [vpPairs]
    simp [decomp, nodePairs_just_glob]
  | ViewPathSimple p r =>
    cases r with
    | none =>
      rw [vpPairs]
      simp [decomp, nodePairs_self_or_rename]
    | some a =>
      rw [vpPairs]
      simp [decomp, nodePairs_self_or_rename]
  | ViewPathList p items =>
    rw [vpPairs]
    simp only [decomp, List.mem_map, Set.mem_setOf_eq]
    constructor
    · rintro ⟨it, hm, rfl⟩
      by_cases hc : it.name = "self"
      · refine ⟨(p, ImportNode.self_or_rename it.rename), ⟨it, hm, by rw [if_pos hc]⟩, ?_⟩
        rw [nodePairs_self_or_rename, itemPair, if_pos hc]
      · refine ⟨(p ++ [it.name], ImportNode.self_or_rename it.rename),
          ⟨it, hm, by rw [if_neg hc]⟩, ?_⟩
        rw [nodePairs_self_or_rename, itemPair, if_neg hc, lastName_append]
    · rintro ⟨pl, ⟨it, hm, rfl⟩, hx⟩
      refine ⟨it, hm, ?_⟩
      by_cases hc : it.name = "self"
      · rw [if_pos hc] at hx
        rw [nodePairs_self_or_rename] at hx
        rw [itemPair, if_pos hc]
        exact hx
      · rw [if_neg hc] at hx
        rw [nodePairs_self_or_rename, lastName_append] at hx
        rw [itemPair, if_neg hc]
        exact hx

theorem add_imports_pairs : ∀ (vps : List ViewPath) (c : ImportCombiner)
    (x : List String × String),
    x ∈ nodePairs (c.add_imports vps).root [] ↔
      x ∈ nodePairs c.root [] ∨ x ∈ declsPairs vps
  | [], c, x => by
    rw [ImportCombiner.add_imports]
    simp [mem_declsPairs]
  | vp :: rest, c, x => by
    have e0 : (c.add_imports (vp :: rest)) = (c.add_import vp).add_imports rest := by
      rw [ImportCombiner.add_imports, ImportCombiner.add_imports, List.foldl_cons]
    rw [e0, add_imports_pairs rest (c.add_import vp) x]
    have e1 : x ∈ nodePairs (c.add_import vp).root [] ↔
        x ∈ nodePairs c.root [] ∨ x ∈ vpPairs vp := by
      rw [add_import_decomp, foldOps_pairs, decomp_vpPairs]
    rw [e1]
    simp only [mem_declsPairs, List.exists_mem_cons_iff]
    tauto

theorem buildTrie_pairs (vps : List ViewPath) (x : List String × String) :
    x ∈ nodePairs (ImportCombiner.new.add_imports vps).root [] ↔
      x ∈ declsPairs vps := by
  rw [add_imports_pairs]
  have : x ∈ nodePairs ImportCombiner.new.root [] ↔ False := nodePairs_new
  rw [this]
  tauto

/-! ## Well-formedness of built tries -/

theorem WFNode_of_childless {n : ImportNode} (h : n.children = []) :
    WFNode n = true := by
  rcases n with ⟨s, g, r, c⟩
  simp only [ImportNode.children] at h
  subst h
  rfl

theorem WFChildren_mem : ∀ {cs : List (String × ImportNode)} {k : String}
    {v : ImportNode}, WFChildren cs = true → (k, v) ∈ cs →
    k ≠ "self" ∧ WFNode v = true
  | [], _, _, _, h => by simp at h
  | (k0, v0) :: tl, k, v, hwf, hm => by
    have h2 : k0 ≠ "self" ∧ WFNode v0 = true ∧ WFChildren tl = true := by
      simpa [WFChildren, Bool.and_eq_true, and_assoc] using hwf
    rcases List.mem_cons.mp hm with hEq | hm
    · injection hEq with hk hv
      subst hk; subst hv
      exact ⟨h2.1, h2.2.1⟩
    · exact WFChildren_mem h2.2.2 hm

theorem WFChildren_replace : ∀ {cs : List (String × ImportNode)} {k : String}
    {w : ImportNode}, WFChildren cs = true → WFNode w = true →
    WFChildren (replaceChild cs k w) = true
  | [], _, _, h, _ => h
  | (k0, v0) :: tl, k, w, hwf, hw => by
    have h2 : k0 ≠ "self" ∧ WFNode v0 = true ∧ WFChildren tl = true := by
      simpa [WFChildren, Bool.and_eq_true, and_assoc] using hwf
    rw [replaceChild]
    split_ifs with hEq
    · simpa [WFChildren, Bool.and_eq_true, and_assoc] using ⟨h2.1, hw, h2.2.2⟩
    · simpa [WFChildren, Bool.and_eq_true, and_assoc] using
        ⟨h2.1, h2.2.1, WFChildren_replace h2.2.2 hw⟩

theorem WFChildren_insert : ∀ {cs : List (String × ImportNode)} {k : String}
    {w : ImportNode}, WFChildren cs = true → k ≠ "self" → WFNode w = true →
    WFChildren (insertChild cs k w) = true
  | [], k, w, _, hk, hw => by
    simpa [insertChild, WFChildren, Bool.and_eq_true, and_assoc] using ⟨hk, hw⟩
  | (k0, v0) :: tl, k, w, hwf, hk, hw => by
    have h2 : k0 ≠ "self" ∧ WFNode v0 = true ∧ WFChildren tl = true := by
      simpa [WFChildren, Bool.and_eq_true, and_assoc] using hwf
    rw [insertChild]
    split_ifs with hlt
    · simpa [WFChildren, Bool.and_eq_true, and_assoc] using ⟨hk, hw, h2.1, h2.2.1, h2.2.2⟩
    · simpa [WFChildren, Bool.and_eq_true, and_assoc] using
        ⟨h2.1, h2.2.1, WFChildren_insert h2.2.2 hk hw⟩

mutual
theorem WF_combine : ∀ (a b : ImportNode), WFNode a = true → WFNode b = true →
    WFNode (a.combine_with b) = true
  | .mk s g r c, .mk s' g' r' c', ha, hb => by
    rw [ImportNode.combine_with]
    have ha' : WFChildren c = true := by simpa [WFNode] using ha
    have hb' : WFChildren c' = true := by simpa [WFNode] using hb
    simpa [WFNode] using WF_combineChildren c c' ha' hb'

theorem WF_combineChildren : ∀ (acc bs : List (String × ImportNode)),
    WFChildren acc = true → WFChildren bs = true →
    WFChildren (combineChildren acc bs) = true
  | acc, [], ha, _ => by
    rw [combineChildren]
    exact ha
  | acc, (k, v) :: rest, ha, hb => by
    have hb' : k ≠ "self" ∧ WFNode v = true ∧ WFChildren rest = true := by
      simpa [WFChildren, Bool.and_eq_true, and_assoc] using hb
    rw [combineChildren]
    cases hlk : lookupChild acc k with
    | some v' =>
      have hv' := WFChildren_mem ha (lookupChild_some hlk)
      exact WF_combineChildren _ rest
        (WFChildren_replace ha (WF_combine v' v hv'.2 hb'.2.1)) hb'.2.2
    | none =>
      exact WF_combineChildren _ rest
        (WFChildren_insert ha hb'.1 hb'.2.1) hb'.2.2
end

theorem WF_addNodeGo : ∀ (n : ImportNode) (path : List String) (leaf : ImportNode),
    WFNode n = true → (∀ s ∈ path, s ≠ "self") → WFNode leaf = true →
    WFNode (addNodeGo n path leaf) = true
  | n, [], leaf, hn, _, hl => by
    rw [addNodeGo_nil]
    exact WF_combine n leaf hn hl
  | .mk s g r c, seg :: rest, leaf, hn, hp, hl => by
    have hn' : WFChildren c = true := by simpa [WFNode] using hn
    have hseg : seg ≠ "self" := hp seg (List.mem_cons_self _ _)
    have hrest : ∀ x ∈ rest, x ≠ "self" := fun x hx => hp x (List.mem_cons_of_mem _ hx)
    rw [addNodeGo_cons]
    cases hlk : lookupChild c seg with
    | some v =>
      have hv := WFChildren_mem hn' (lookupChild_some hlk)
      rw [childUpdate_some hlk]
      simpa [WFNode] using
        WFChildren_replace hn' (WF_addNodeGo v rest leaf hv.2 hrest hl)
    | none =>
      rw [childUpdate_none hlk]
      simpa [WFNode] using WFChildren_insert hn' hseg
        (WF_addNodeGo ImportNode.new rest leaf rfl hrest hl)

theorem wf_decomp_path (vp : ViewPath) (hwf : vp.wf = true) :
    ∀ pl ∈ decomp vp, ∀ s ∈ pl.1, s ≠ "self" := by
  have hpath : ∀ s ∈ vp.path, s ≠ "self" := by
    intro s hs
    have := List.all_eq_true.mp hwf s hs
    simpa using this
  intro pl hm s hs
  cases vp with
  | ViewPathGlob p =>
    rcases List.mem_singleton.mp hm with rfl
    exact hpath s hs
  | ViewPathSimple p r =>
    rcases List.mem_singleton.mp hm with rfl
    exact hpath s hs
  | ViewPathList p items =>
    rcases List.mem_map.mp hm with ⟨i, _, rfl⟩
    by_cases hc : i.name = "self"
    · rw [if_pos hc] at hs
      exact hpath s hs
    · rw [if_neg hc] at hs
      rcases List.mem_append.mp hs with hs | hs
      · exact hpath s hs
      · rcases List.mem_singleton.mp hs with rfl
        exact hc

theorem WF_foldOps : ∀ (ops : List (List String × ImportNode)) (t : ImportNode),
    WFNode t = true →
    (∀ pl ∈ ops, pl.2.children = [] ∧ ∀ s ∈ pl.1, s ≠ "self") →
    WFNode (ops.foldl addLeafStep t) = true
  | [], t, ht, _ => ht
  | pl :: rest, t, ht, hops => by
    rw [List.foldl_cons]
    have h1 := hops pl (List.mem_cons_self _ _)
    exact WF_foldOps rest _
      (WF_addNodeGo t pl.1 pl.2 ht h1.2 (WFNode_of_childless h1.1))
      (fun q hq => hops q (List.mem_cons_of_mem _ hq))

theorem WF_add_import (c : ImportCombiner) (vp : ViewPath)
    (hc : WFNode c.root = true) (hvp : vp.wf = true) :
    WFNode (c.add_import vp).root = true := by
  rw [add_import_decomp]
  exact WF_foldOps (decomp vp) c.root hc
    (fun pl hm => ⟨(decomp_leaf vp pl hm).1, wf_decomp_path vp hvp pl hm⟩)

theorem WF_add_imports : ∀ (vps : List ViewPath) (c : ImportCombiner),
    WFNode c.root = true → (∀ vp ∈ vps, vp.wf = true) →
    WFNode (c.add_imports vps).root = true
  | [], c, hc, _ => hc
  | vp :: rest, c, hc, hwf => by
    have e0 : c.add_imports (vp :: rest) = (c.add_import vp).add_imports rest := by
      rw [ImportCombiner.add_imports, ImportCombiner.add_imports, List.foldl_cons]
    rw [e0]
    exact WF_add_imports rest _
      (WF_add_import c vp hc (hwf vp (List.mem_cons_self _ _)))
      (fun q hq => hwf q (List.mem_cons_of_mem _ hq))

/-! ## Emission soundness and completeness (C1 machinery) -/

theorem glob_mem_localEmit {n : ImportNode} {sc rc : Bool} {p : List String}
    (hg : n.has_glob = true) : ViewPath.ViewPathGlob p ∈ localEmit n sc rc p := by
  rw [localEmit]
  refine List.mem_append.mpr (Or.inr ?_)
  rw [if_pos hg]
  exact List.mem_singleton.mpr rfl

theorem list_head_mem_localEmit {n : ImportNode} {sc rc : Bool} {p : List String}
    (hw : will_use_list n sc rc = true) :
    ViewPath.ViewPathList p (use_list n sc rc) ∈ localEmit n sc rc p := by
  rw [localEmit_pos hw]
  exact List.mem_cons_self _ _

theorem selfSimple_mem_localEmit {n : ImportNode} {sc rc : Bool} {p : List String}
    (hw : will_use_list n sc rc = false) (hs : n.has_self = true) (hsc : sc = false) :
    ViewPath.ViewPathSimple p none ∈ localEmit n sc rc p := by
  rw [localEmit_neg hw]
  refine List.mem_append.mpr (Or.inl (List.mem_append.mpr (Or.inl ?_)))
  rw [if_pos (by simp [hs, hsc])]
  exact List.mem_singleton.mpr rfl

theorem renameSimple_mem_localEmit {n : ImportNode} {sc rc : Bool} {p : List String}
    {r : String} (hw : will_use_list n sc rc = false) (hrc : rc = false)
    (hr : r ∈ n.renames) :
    ViewPath.ViewPathSimple p (some r) ∈ localEmit n sc rc p := by
  rw [localEmit_neg hw]
  refine List.mem_append.mpr (Or.inl (List.mem_append.mpr (Or.inr ?_)))
  rw [if_pos (by simp [hrc])]
  exact List.mem_map.mpr ⟨r, hr, rfl⟩

theorem local_pairs_sub {n : ImportNode} {sc rc : Bool} {p : List String}
    {vp : ViewPath} {x : List String × String} (hvp : vp ∈ localEmit n sc rc p)
    (hx : x ∈ vpPairs vp) :
    x ∈ declsPairs (get_imports_for_node n sc rc p) := by
  rw [gifn_eq]
  exact declsPairs_append.mpr (Or.inl (declsPairs_of_mem hvp hx))

theorem itemPair_self_none {p : List String} :
    itemPair p ⟨"self", none⟩ = (p, lastName p) := by
  simp [itemPair]

theorem itemPair_self_some {p : List String} {r : String} :
    itemPair p ⟨"self", some r⟩ = (p, r) := by
  simp [itemPair]

theorem itemPair_child {p : List String} {k : String} {o : Option String}
    (hk : k ≠ "self") :
    itemPair p ⟨k, o⟩ = (p ++ [k], o.getD k) := by
  simp [itemPair, hk]

/-- Every item in the candidate bundle of a well-formed node denotes a pair
recorded in the node. -/
theorem use_list_pair_sound {hs hg : Bool} {rn : List String}
    {c : List (String × ImportNode)} {sc rc : Bool} {p : List String} {it : Item}
    (hwf : WFChildren c = true) (h : it ∈ use_list (.mk hs hg rn c) sc rc) :
    itemPair p it ∈ nodePairs (ImportNode.mk hs hg rn c) p := by
  rcases (mem_use_list _ sc rc it).mp h with ⟨hself, _, rfl⟩ | ⟨_, r, hr, rfl⟩ | hci
  · rw [itemPair_self_none]
    exact mem_nodePairs.mpr (Or.inl ⟨hself, rfl⟩)
  · rw [itemPair_self_some]
    exact mem_nodePairs.mpr (Or.inr (Or.inl ⟨r, hr, rfl⟩))
  · rcases (mem_childItems c hg it).mp hci with ⟨k, v, hm, hcase⟩
    have hk : k ≠ "self" := (WFChildren_mem hwf hm).1
    have hv : itemPair p it ∈ nodePairs v (p ++ [k]) := by
      rcases v with ⟨vs, vg, vr, vc⟩
      rcases hcase with ⟨hvs, _, rfl⟩ | ⟨r, hr, rfl⟩
      · rw [itemPair_child hk]
        exact mem_nodePairs.mpr (Or.inl ⟨hvs, by simp [lastName_append]⟩)
      · rw [itemPair_child hk]
        exact mem_nodePairs.mpr (Or.inr (Or.inl ⟨r, hr, rfl⟩))
    exact mem_nodePairs.mpr
      (Or.inr (Or.inr (Or.inr (mem_childrenPairs.mpr ⟨k, v, hm, hv⟩))))

/-- Every pair denoted by a node's local emission is recorded in the node. -/
theorem localEmit_pairs_sound {hs hg : Bool} {rn : List String}
    {c : List (String × ImportNode)} {sc rc : Bool} {p : List String}
    {x : List String × String} (hwfc : WFChildren c = true)
    (hx : x ∈ declsPairs (localEmit (.mk hs hg rn c) sc rc p)) :
    x ∈ nodePairs (ImportNode.mk hs hg rn c) p := by
  rcases mem_declsPairs.mp hx with ⟨vp, hvp, hxv⟩
  rcases hw : will_use_list (.mk hs hg rn c) sc rc with _ | _
  · rw [localEmit_neg hw] at hvp
    rcases List.mem_append.mp hvp with h | h
    · rcases List.mem_append.mp h with h | h
      · split_ifs at h with hc
        · rcases List.mem_singleton.mp h with rfl
          have hc' : hs = true ∧ sc = false := by
            simpa [Bool.and_eq_true] using hc
          rw [vpPairs] at hxv
          simp only [Set.mem_singleton_iff] at hxv
          exact mem_nodePairs.mpr (Or.inl ⟨hc'.1, hxv⟩)
        · simp at h
      · split_ifs at h with hc
        · rcases List.mem_map.mp h with ⟨r, hr, rfl⟩
          rw [vpPairs] at hxv
          simp only [Set.mem_singleton_iff] at hxv
          exact mem_nodePairs.mpr (Or.inr (Or.inl ⟨r, hr, hxv⟩))
        · simp at h
    · split_ifs at h with hc
      · rcases List.mem_singleton.mp h with rfl
        rw [vpPairs] at hxv
        exact mem_nodePairs.mpr (Or.inr (Or.inr (Or.inl ⟨hc, hxv⟩)))
      · simp at h
  · rw [localEmit_pos hw] at hvp
    rcases List.mem_cons.mp hvp with rfl | h
    · rw [vpPairs] at hxv
      simp only [Set.mem_setOf_eq] at hxv
      rcases hxv with ⟨it, hit, rfl⟩
      exact use_list_pair_sound hwfc hit
    · split_ifs at h with hc
      · rcases List.mem_singleton.mp h with rfl
        rw [vpPairs] at hxv
        exact mem_nodePairs.mpr (Or.inr (Or.inr (Or.inl ⟨hc, hxv⟩)))
      · simp at h

mutual
/-- Emission soundness: with well-formed children keys, every pair denoted by
the output of `get_imports_for_node` is recorded in the node. -/
theorem emit_sound : ∀ (n : ImportNode) (sc rc : Bool) (p : List String)
    (x : List String × String), WFNode n = true →
    x ∈ declsPairs (get_imports_for_node n sc rc p) → x ∈ nodePairs n p
  | .mk hs hg rn c, sc, rc, p, x, hwf, hx => by
    have hwfc : WFChildren c = true := by simpa [WFNode] using hwf
    rw [gifn_eq] at hx
    rcases declsPairs_append.mp hx with hx | hx
    · exact localEmit_pairs_sound hwfc hx
    · exact mem_nodePairs.mpr
        (Or.inr (Or.inr (Or.inr (childImports_sound c _ _ p x hwfc hx))))

theorem childImports_sound : ∀ (cs : List (String × ImportNode)) (sc rc : Bool)
    (p : List String) (x : List String × String), WFChildren cs = true →
    x ∈ declsPairs (childImports cs sc rc p) → x ∈ childrenPairs cs p
  | [], sc, rc, p, x, _, hx => by
    rw [childImports] at hx
    rcases mem_declsPairs.mp hx with ⟨vp, hvp, _⟩
    simp at hvp
  | (k0, v0) :: rest, sc, rc, p, x, hwf, hx => by
    have h2 : k0 ≠ "self" ∧ WFNode v0 = true ∧ WFChildren rest = true := by
      simpa [WFChildren, Bool.and_eq_true, and_assoc] using hwf
    rw [childImports] at hx
    rw [childrenPairs]
    rcases declsPairs_append.mp hx with hx | hx
    · exact Set.mem_union_left _ (emit_sound v0 sc rc (p ++ [k0]) x h2.2.1 hx)
    · exact Set.mem_union_right _ (childImports_sound rest sc rc p x h2.2.2 hx)
end

mutual
/-- Emission completeness: every pair recorded in a well-formed node is
denoted by the node's output, except the self pair when the caller marked
self consumed and the rename pairs when the caller marked renames consumed
(which the caller itself emits). -/
theorem emit_complete : ∀ (n : ImportNode) (sc rc : Bool) (p : List String)
    (x : List String × String), WFNode n = true → x ∈ nodePairs n p →
    x ∈ declsPairs (get_imports_for_node n sc rc p) ∨
      (sc = true ∧ n.has_self = true ∧ x = (p, lastName p)) ∨
      (rc = true ∧ ∃ r ∈ n.renames, x = (p, r))
  | .mk hs hg rn c, sc, rc, p, x, hwf, hx => by
    have hwfc : WFChildren c = true := by simpa [WFNode] using hwf
    rcases mem_nodePairs.mp hx with ⟨hhs, rfl⟩ | ⟨r, hr, rfl⟩ | ⟨hhg, hxg⟩ | hxc
    · cases sc with
      | true => exact Or.inr (Or.inl ⟨rfl, hhs, rfl⟩)
      | false =>
        left
        rcases hw : will_use_list (.mk hs hg rn c) false rc with _ | _
        · refine local_pairs_sub (selfSimple_mem_localEmit hw hhs rfl) ?_
          rw [vpPairs]
          exact rfl
        · refine local_pairs_sub (list_head_mem_localEmit hw) ?_
          rw [vpPairs]
          simp only [Set.mem_setOf_eq]
          exact ⟨⟨"self", none⟩,
            (mem_use_list _ _ _ _).mpr (Or.inl ⟨hhs, rfl, rfl⟩),
            itemPair_self_none.symm⟩
    · cases rc with
      | true => exact Or.inr (Or.inr ⟨rfl, r, hr, rfl⟩)
      | false =>
        left
        rcases hw : will_use_list (.mk hs hg rn c) sc false with _ | _
        · refine local_pairs_sub (renameSimple_mem_localEmit hw rfl hr) ?_
          rw [vpPairs]
          exact rfl
        · refine local_pairs_sub (list_head_mem_localEmit hw) ?_
          rw [vpPairs]
          simp only [Set.mem_setOf_eq]
          exact ⟨⟨"self", some r⟩,
            (mem_use_list _ _ _ _).mpr (Or.inr (Or.inl ⟨rfl, r, hr, rfl⟩)),
            itemPair_self_some.symm⟩
    · left
      refine local_pairs_sub (glob_mem_localEmit hhg) ?_
      rw [vpPairs]
      exact hxg
    · rcases childImports_complete c
          (will_use_list (.mk hs hg rn c) sc rc || hg)
          (will_use_list (.mk hs hg rn c) sc rc) p x hwfc hxc with
        hc | ⟨hsc', k, v, hm, hvs, rfl⟩ | ⟨hrc', k, v, r, hm, hr, rfl⟩
      · left
        rw [gifn_eq]
        exact declsPairs_append.mpr (Or.inr hc)
      · left
        have hk : k ≠ "self" := (WFChildren_mem hwfc hm).1
        cases hg with
        | true =>
          refine local_pairs_sub (glob_mem_localEmit rfl) ?_
          rw [vpPairs]
          exact ⟨k, rfl⟩
        | false =>
          have hw : will_use_list (.mk hs false rn c) sc rc = true := by
            simpa using hsc'
          refine local_pairs_sub (list_head_mem_localEmit hw) ?_
          rw [vpPairs]
          simp only [Set.mem_setOf_eq]
          refine ⟨⟨k, none⟩, ?_, ?_⟩
          · exact (mem_use_list _ _ _ _).mpr (Or.inr (Or.inr
              ((mem_childItems c false ⟨k, none⟩).mpr
                ⟨k, v, hm, Or.inl ⟨hvs, rfl, rfl⟩⟩)))
          · rw [itemPair_child hk]
            simp
      · left
        have hk : k ≠ "self" := (WFChildren_mem hwfc hm).1
        refine local_pairs_sub (list_head_mem_localEmit hrc') ?_
        rw [vpPairs]
        simp only [Set.mem_setOf_eq]
        refine ⟨⟨k, some r⟩, ?_, ?_⟩
        · exact (mem_use_list _ _ _ _).mpr (Or.inr (Or.inr
            ((mem_childItems c hg ⟨k, some r⟩).mpr
              ⟨k, v, hm, Or.inr ⟨r, hr, rfl⟩⟩)))
        · rw [itemPair_child hk]
          simp

theorem childImports_complete : ∀ (cs : List (String × ImportNode)) (sc rc : Bool)
    (p : List String) (x : List String × String), WFChildren cs = true →
    x ∈ childrenPairs cs p →
    x ∈ declsPairs (childImports cs sc rc p) ∨
      (sc = true ∧ ∃ k v, (k, v) ∈ cs ∧ v.has_self = true ∧ x = (p ++ [k], k)) ∨
      (rc = true ∧ ∃ k v r, (k, v) ∈ cs ∧ r ∈ v.renames ∧ x = (p ++ [k], r))
  | [], sc, rc, p, x, _, hx => by
    rw [childrenPairs] at hx
    exact absurd hx (Set.not_mem_empty x)
  | (k0, v0) :: rest, sc, rc, p, x, hwf, hx => by
    have h2 : k0 ≠ "self" ∧ WFNode v0 = true ∧ WFChildren rest = true := by
      simpa [WFChildren, Bool.and_eq_true, and_assoc] using hwf
    rw [childrenPairs] at hx
    rcases (Set.mem_union x _ _).mp hx with hxv | hxr
    · rcases emit_complete v0 sc rc (p ++ [k0]) x h2.2.1 hxv with
        h | ⟨hsc, hvs, hxe⟩ | ⟨hrc, r, hr, hxe⟩
      · left
        rw [childImports]
        exact declsPairs_append.mpr (Or.inl h)
      · exact Or.inr (Or.inl ⟨hsc, k0, v0, List.mem_cons_self _ _, hvs,
          by rw [hxe, lastName_append]⟩)
      · exact Or.inr (Or.inr ⟨hrc, k0, v0, r, List.mem_cons_self _ _, hr, hxe⟩)
    · rcases childImports_complete rest sc rc p x h2.2.2 hxr with
        h | ⟨hsc, k, v, hm, hvs, hxe⟩ | ⟨hrc, k, v, r, hm, hr, hxe⟩
      · left
        rw [childImports]
        exact declsPairs_append.mpr (Or.inr h)
      · exact Or.inr (Or.inl ⟨hsc, k, v, List.mem_cons_of_mem _ hm, hvs, hxe⟩)
      · exact Or.inr (Or.inr ⟨hrc, k, v, r, List.mem_cons_of_mem _ hm, hr, hxe⟩)
end

/-! ## C1: the semantic round trip -/

/-- C1: for every finite collection of well-formed declarations (no path
segment is the keyword `self`), the output of `combine_imports` denotes
exactly the same set of (full path, local binding name) pairs as the union
of the inputs, where a glob at a path denotes every un-aliased direct-child
binding of that path (`globFam`) — so a bare child import together with a
wildcard over its parent denotes the same binding set as the wildcard
alone. -/
theorem semantic_round_trip (vps : List ViewPath)
    (hwf : ∀ vp ∈ vps, vp.wf = true) :
    declsPairs (combine_imports vps) = declsPairs vps := by
  have hWF : WFNode (ImportCombiner.new.add_imports vps).root = true :=
    WF_add_imports vps ImportCombiner.new rfl hwf
  apply Set.ext
  intro x
  constructor
  · intro hx
    rw [← buildTrie_pairs vps x]
    exact emit_sound _ false false [] x hWF hx
  · intro hx
    have hx' : x ∈ nodePairs (ImportCombiner.new.add_imports vps).root [] :=
      (buildTrie_pairs vps x).mpr hx
    rcases emit_complete _ false false [] x hWF hx' with h | ⟨h, _⟩ | ⟨h, _⟩
    · exact h
    · exact Bool.noConfusion h
    · exact Bool.noConfusion h

theorem semantic_round_trip_witness :
    (∀ vp ∈ [ViewPath.ofStr "a::b::c", ViewPath.ofStr "a::b::*"], vp.wf = true) ∧
    declsPairs (combine_imports [ViewPath.ofStr "a::b::c", ViewPath.ofStr "a::b::*"]) =
      declsPairs [ViewPath.ofStr "a::b::c", ViewPath.ofStr "a::b::*"] :=
  ⟨by decide, semantic_round_trip _ (by decide)⟩
